import Mathlib

/-!
Verification of the content-extraction engine of `koishi-plugin-xiaohongshu-parser-node`.

The TypeScript sources are shallowly embedded as Lean functions:

* strings are handled as `String` / `List Char` (the TS code only manipulates
  code units through indexing, `trim`, `startsWith`, `endsWith`, `includes`,
  `slice`; on the ASCII-and-CJK inputs relevant here Lean characters and
  JS code units coincide);
* decoded JSON values (the output of the host `JSON.parse`) are an inductive
  `Json` type; `JSON.parse` itself is a host primitive and is not modeled —
  functions receive already-decoded values;
* the WHATWG `new URL` host primitive is modeled by a simplified parser
  `parseUrl` that handles absolute `http`/`https` URLs (the only ones the
  claims exercise) and fails on everything else, mirroring the `try/catch`
  uses in the source;
* queue-based breadth-first searches are embedded with an explicit fuel
  argument instantiated with `sizeOf` of the root value, which bounds the
  number of nodes a traversal of a decoded (hence tree-shaped) JSON value
  can ever pop.  The TS `visited` sets are keyed on reference identity and
  never fire on `JSON.parse` output (a tree with no shared references), so
  they are omitted.
-/

/-! ## Characters and JS string trimming -/

/-- The opening brace character, written via its code to keep string literals plain. -/
def obr : Char := '\x7b'

/-- The closing brace character. -/
def cbr : Char := '\x7d'

/-- The double-quote character. -/
def dq : Char := '\x22'

/-- The single-quote character. -/
def sqc : Char := '\x27'

/-- The backslash character. -/
def bs : Char := '\x5c'

/-- JS `String.prototype.trim` whitespace (the members that occur in practice;
the full JS set also has further rare Unicode space separators). -/
def isJsWs (c : Char) : Bool :=
  c == ' ' || c == '\t' || c == '\n' || c == '\r' || c == '\x0b' || c == '\x0c' ||
  c == '\xa0' || c == ' ' || c == ' ' || c == '﻿'

/-- Trim JS whitespace from both ends of a character list. -/
def trimL (l : List Char) : List Char :=
  ((l.dropWhile isJsWs).reverse.dropWhile isJsWs).reverse

/-- Model of JS `String.prototype.trim`. -/
def jstrim (s : String) : String :=
  String.mk (trimL s.toList)

/-! ## C2: the balanced-brace scanner of `BasicXHSClient.extractJsonFromAssignment` -/

/-- Scanner state of the balanced-brace loop in `extractJsonFromAssignment`
(src/unnamed/part_001 lines 516-518): current nesting `depth` (a JS number,
modeled as `Int`), the active string-literal quote (`stringChar`), and the
one-character `escaped` flag. -/
structure ScanState where
  depth : Int
  stringChar : Option Char
  escaped : Bool
  deriving DecidableEq

/-- The initial scanner state (`depth = 0`, not inside a string, not escaped). -/
def scanInit : ScanState := ⟨0, none, false⟩

/-- One step of the scanning loop body (lines 520-546 of src/unnamed/part_001),
for an iteration that does not return. -/
def stepState (st : ScanState) (c : Char) : ScanState :=
  if st.escaped then { st with escaped := false }
  else
    match st.stringChar with
    | some q =>
      if c = bs then { st with escaped := true }
      else if c = q then { st with stringChar := none }
      else st
    | none =>
      if c = dq ∨ c = sqc then { st with stringChar := some c }
      else if c = obr then { st with depth := st.depth + 1 }
      else if c = cbr then { st with depth := st.depth - 1 }
      else st

/-- The condition under which the loop returns the span at the current character:
an unescaped closing brace outside any string literal that brings the depth
back to zero (lines 546-548 of src/unnamed/part_001). -/
def closesHere (st : ScanState) (c : Char) : Bool :=
  decide (st.escaped = false ∧ st.stringChar = none ∧ c = cbr ∧ st.depth = 1)

/-- The scanning loop of `extractJsonFromAssignment`, returning the offset of the
closing brace relative to the start of the scan. -/
def findClose : List Char → ScanState → Option Nat
  | [], _ => none
  | c :: rest, st =>
    if closesHere st c then some 0
    else (findClose rest (stepState st c)).map (· + 1)

/-- Folding the step relation over a character list. -/
def runScan (st : ScanState) (cs : List Char) : ScanState := cs.foldl stepState st

/-- Specification-side characterization of "the matching closing brace": position
`k` closes the scan started in state `st` when the character at `k` is an
unescaped `\x7d` outside a string literal bringing the depth from one back to
zero, with the state at `k` obtained by folding the step relation over the
first `k` characters. -/
def isCloseAtB (st : ScanState) (cs : List Char) (k : Nat) : Bool :=
  match cs.get? k with
  | some c => closesHere (runScan st (cs.take k)) c
  | none => false

/-- Boolean prefix test on character lists (model of string search primitives). -/
def listStartsWith : List Char → List Char → Bool
  | [], _ => true
  | _ :: _, [] => false
  | p :: ps, c :: cs => p == c && listStartsWith ps cs

/-- Model of JS `String.prototype.indexOf(pat)`: index of the first occurrence
of `pat` in `s`, if any. -/
def indexOfSub : List Char → List Char → Option Nat
  | [], pat => if listStartsWith pat [] then some 0 else none
  | c :: rest, pat =>
    if listStartsWith pat (c :: rest) then some 0
    else (indexOfSub rest pat).map (· + 1)

/-- Index of the first occurrence of character `t`, if any. -/
def findIdxOfChar (t : Char) : List Char → Option Nat
  | [] => none
  | c :: rest => if c = t then some 0 else (findIdxOfChar t rest).map (· + 1)

/-- Model of JS `String.prototype.indexOf(t, i)`: first index `≥ i` holding `t`. -/
def findCharIdxFrom (cs : List Char) (i : Nat) (t : Char) : Option Nat :=
  (findIdxOfChar t (cs.drop i)).map (· + i)

/-- Faithful translation of the span computation inside
`BasicXHSClient.extractJsonFromAssignment` (src/unnamed/part_001 lines 505-560):
locate the marker, find the next opening brace, run the balanced-brace scan,
and return the candidate span `script.slice(start, i + 1)`.  The TS function
then hands this span to `safeJsonParse` (the host `JSON.parse`, not modeled)
and returns the decoded object or `null`. -/
def extractAssignmentSpan (script marker : List Char) : Option (List Char) :=
  match indexOfSub script marker with
  | none => none
  | some idx =>
    match findCharIdxFrom script idx obr with
    | none => none
    | some start =>
      match findClose (script.drop start) scanInit with
      | none => none
      | some k => some ((script.drop start).take (k + 1))

/-- A concrete inline-state script used to witness the scanner theorems. -/
def scriptW : List Char :=
  "window.__INITIAL_STATE__=".toList ++ [obr] ++ "\"a\":\"b\"".toList ++ [cbr] ++ ";".toList

/-- The marker searched for in the witness script. -/
def markerW : List Char := "__INITIAL_STATE__".toList

/-! ## URL model

The source calls the WHATWG `new URL` host primitive inside `try/catch`.  We
model it with a simplified parser for absolute `http`/`https` URLs (scheme,
host up to the first `/` or `?`, path up to the first `?`, query); any other
string fails to parse, mirroring the `catch` branches.  Unlike the WHATWG
parser we do not lower-case the host or normalize empty paths; the call sites
below lower-case explicitly exactly where the TS source does. -/

/-- Model of JS `String.prototype.startsWith`. -/
def strStartsWith (s p : String) : Bool := listStartsWith p.toList s.toList

/-- Model of JS `String.prototype.endsWith`. -/
def strEndsWith (s suffix : String) : Bool :=
  listStartsWith suffix.toList.reverse s.toList.reverse

/-- Model of JS `String.prototype.includes`. -/
def strIncludes (s pat : String) : Bool := (indexOfSub s.toList pat.toList).isSome

/-- Characters allowed in the host component (everything up to `/` or `?`). -/
def hostPred (c : Char) : Bool := !(c == '/' || c == '?')

/-- Characters allowed in the path component (everything up to `?`). -/
def notQm (c : Char) : Bool := c != '?'

/-- The components of a parsed absolute http(s) URL. -/
structure UrlParts where
  secure : Bool
  host : String
  path : String
  query : Option String
  deriving DecidableEq

/-- The query part as rendered characters (empty, or `?` followed by the query). -/
def qpartOf (u : UrlParts) : List Char :=
  match u.query with
  | none => []
  | some q => '?' :: q.toList

/-- Split everything after the scheme into host, path and query. -/
def parseRest (secure : Bool) (rest : List Char) : Option UrlParts :=
  if rest.takeWhile hostPred = [] then none
  else
    some ⟨secure, String.mk (rest.takeWhile hostPred),
      String.mk ((rest.dropWhile hostPred).takeWhile notQm),
      match (rest.dropWhile hostPred).dropWhile notQm with
      | [] => none
      | _ :: t => some (String.mk t)⟩

/-- Model of the `new URL(s)` constructor restricted to absolute http(s) URLs. -/
def parseUrl (s : String) : Option UrlParts :=
  match s.toList with
  | 'h' :: 't' :: 't' :: 'p' :: ':' :: '/' :: '/' :: rest => parseRest false rest
  | 'h' :: 't' :: 't' :: 'p' :: 's' :: ':' :: '/' :: '/' :: rest => parseRest true rest
  | _ => none

/-- Model of `URL.prototype.toString` for the parsed representation. -/
def UrlParts.render (u : UrlParts) : String :=
  (if u.secure then "https://" else "http://") ++ u.host ++ u.path ++
    (match u.query with | none => "" | some q => "?" ++ q)

/-! ## C4/C9: media deduplication (`BasicXHSClient.deduplicateUrls`,
`deduplicateVideoUrls`, `getVideoCanonicalKey`, `normalizeSingleVideoUrl`,
src/unnamed/part_001 lines 1208-1284) -/

/-- Faithful translation of `BasicXHSClient.normalizeSingleVideoUrl`
(src/unnamed/part_001 lines 1263-1284): trim; on a parsable plain-http URL of
the note CDN upgrade the scheme to https and re-render; other parsable URLs
are returned trimmed; unparsable strings are kept when they begin with
`http`, everything else is dropped. -/
def normalizeSingleVideoUrl (urlStr : String) : Option String :=
  if jstrim urlStr = "" then none
  else
    match parseUrl (jstrim urlStr) with
    | some u =>
      if u.secure = false ∧ strEndsWith u.host "xhscdn.com" = true then
        some (UrlParts.render { u with secure := true })
      else some (jstrim urlStr)
    | none =>
      if strStartsWith (jstrim urlStr) "http" then some (jstrim urlStr) else none

/-- Faithful translation of `BasicXHSClient.getVideoCanonicalKey`
(src/unnamed/part_001 lines 1245-1261): on the note CDN with a streaming path
the dedup key is the pathname alone; otherwise the trimmed string itself. -/
def getVideoCanonicalKey (urlStr : String) : String :=
  if jstrim urlStr = "" then ""
  else
    match parseUrl (jstrim urlStr) with
    | some u =>
      if strEndsWith u.host "xhscdn.com" && strIncludes u.path "/stream/" then u.path
      else jstrim urlStr
    | none => jstrim urlStr

/-- Loop of `BasicXHSClient.deduplicateVideoUrls` (src/unnamed/part_001 lines
1224-1243) with the mutable `seen` set made explicit. -/
def dedupVideosGo : List String → List String → List String
  | [], _ => []
  | u :: rest, seen =>
    match normalizeSingleVideoUrl u with
    | none => dedupVideosGo rest seen
    | some n =>
      if getVideoCanonicalKey n ∈ seen then dedupVideosGo rest seen
      else n :: dedupVideosGo rest (getVideoCanonicalKey n :: seen)

/-- Faithful translation of `BasicXHSClient.deduplicateVideoUrls`. -/
def deduplicateVideoUrls (urls : List String) : List String := dedupVideosGo urls []

/-- Loop of `BasicXHSClient.deduplicateUrls` (src/unnamed/part_001 lines
1208-1222) with the mutable `seen` set made explicit. -/
def dedupUrlsGo : List String → List String → List String
  | [], _ => []
  | u :: rest, seen =>
    if jstrim u = "" then dedupUrlsGo rest seen
    else if jstrim u ∈ seen then dedupUrlsGo rest seen
    else jstrim u :: dedupUrlsGo rest (jstrim u :: seen)

/-- Faithful translation of `BasicXHSClient.deduplicateUrls`: trim, drop
empties, keep the first occurrence of each trimmed URL. -/
def deduplicateUrls (urls : List String) : List String := dedupUrlsGo urls []

/-- Generic first-occurrence-per-key deduplication, used to characterize the
video dedup loop. -/
def dedupFirstByKey (key : String → String) : List String → List String → List String
  | [], _ => []
  | a :: rest, seen =>
    if key a ∈ seen then dedupFirstByKey key rest seen
    else a :: dedupFirstByKey key rest (key a :: seen)

/-- Reassemble the query component from its rendered characters. -/
def queryOfQpart (qpart : List Char) : Option String :=
  match qpart with
  | [] => none
  | _ :: t => some (String.mk t)

/-- Well-formedness of URL components used to state host/query-insensitivity
of the canonical key: nonempty host without `/` or `?`, a path that is empty
or slash-initial and question-mark-free, and no whitespace anywhere in the
rendered URL. -/
def wfUrl (u : UrlParts) : Prop :=
  u.host.toList ≠ [] ∧ (∀ c ∈ u.host.toList, hostPred c = true) ∧
  (∀ c ∈ u.path.toList, notQm c = true) ∧
  (u.path.toList = [] ∨ u.path.toList.head? = some '/') ∧
  (∀ c ∈ u.render.toList, isJsWs c = false)

/-- First mirror URL of the platform CDN for the collapse example. -/
def mirrorU1 : UrlParts := ⟨true, "sns-video-bd.xhscdn.com", "/stream/110/abc", some "sign=1"⟩

/-- Second mirror URL: same streaming path, different host and signed query. -/
def mirrorU2 : UrlParts := ⟨true, "sns-video-hw.xhscdn.com", "/stream/110/abc", some "sign=2"⟩

instance (u : UrlParts) : Decidable (wfUrl u) := by
  unfold wfUrl
  infer_instance

/-! ## Decoded JSON values and the note extraction pipeline of
`BasicXHSClient.parseBasicNote` (src/unnamed/part_001 lines 388-461) -/

/-- A decoded JSON value, the output of the host `JSON.parse` (numbers are
modeled as integers; no claim depends on fractional values). -/
inductive Json where
  | null
  | bool (b : Bool)
  | num (n : Int)
  | str (s : String)
  | arr (elems : List Json)
  | obj (fields : List (String × Json))

mutual

/-- Computable node count of a decoded JSON value, used as traversal fuel. -/
def Json.size : Json → Nat
  | .null => 1
  | .bool _ => 1
  | .num _ => 1
  | .str _ => 1
  | .arr l => 1 + Json.sizeList l
  | .obj fs => 1 + Json.sizeFields fs

/-- Node count of a list of JSON values. -/
def Json.sizeList : List Json → Nat
  | [] => 0
  | j :: rest => Json.size j + Json.sizeList rest

/-- Node count of an object field list. -/
def Json.sizeFields : List (String × Json) → Nat
  | [] => 0
  | (_, j) :: rest => Json.size j + Json.sizeFields rest

end

/-- JS truthiness of a decoded JSON value. -/
def jsTruthy : Json → Bool
  | .null => false
  | .bool b => b
  | .num n => n != 0
  | .str s => s != ""
  | .arr _ => true
  | .obj _ => true

/-- First-match association lookup (objects decoded by `JSON.parse` carry
unique keys, so this is exact field access). -/
def lookupField : List (String × Json) → String → Option Json
  | [], _ => none
  | (k, v) :: rest, key => if k = key then some v else lookupField rest key

/-- Field access `record[key]`; `undefined` on non-objects. -/
def Json.getField : Json → String → Option Json
  | .obj fs, key => lookupField fs key
  | _, _ => none

/-- `typeof record[key] === 'string'` together with the string value. -/
def Json.getStrField (j : Json) (key : String) : Option String :=
  match j.getField key with
  | some (.str s) => some s
  | _ => none

/-- The JS `key in record` test. -/
def Json.hasField (j : Json) (key : String) : Bool :=
  match j with
  | .obj fs => fs.any (fun p => p.1 == key)
  | _ => false

/-- `value && typeof value === 'object'` (arrays are objects in JS; decoded
JSON null is falsy and excluded). -/
def isObjLike : Json → Bool
  | .arr _ => true
  | .obj _ => true
  | _ => false

/-- `BasicXHSClient.firstString` (src/unnamed/part_001 lines 1286-1293): the
first argument that is a string with a nonempty trim, trimmed; otherwise the
empty string.  Absent fields are passed as `none`. -/
def firstString : List (Option Json) → String
  | [] => ""
  | some (.str s) :: rest => if jstrim s ≠ "" then jstrim s else firstString rest
  | _ :: rest => firstString rest

/-- JS `x || y || …` over possibly-missing field reads (an absent field is
`undefined`, which is falsy; an all-falsy chain yields a falsy value, which the
callers below never use). -/
def firstTruthy : List (Option Json) → Option Json
  | [] => none
  | some v :: rest => if jsTruthy v then some v else firstTruthy rest
  | none :: rest => firstTruthy rest

/-- JS `x ?? y ?? …`: the first non-nullish value. -/
def firstNonNullish : List (Option Json) → Option Json
  | [] => none
  | some .null :: rest => firstNonNullish rest
  | some v :: _rest => some v
  | none :: rest => firstNonNullish rest

/-- The `pushValue` closure of `BasicXHSClient.normalizeImages`
(src/unnamed/part_001 lines 1179-1197). -/
def pushJsonLdImage (v : Json) : List String :=
  if jsTruthy v = false then []
  else
    match v with
    | .str s => if jstrim s ≠ "" then [jstrim s] else []
    | .obj _ =>
      match firstTruthy [v.getField "url", v.getField "contentUrl", v.getField "image",
          v.getField "thumbnailUrl"] with
      | some (.str c) => if jstrim c ≠ "" then [jstrim c] else []
      | _ => []
    | _ => []

/-- `BasicXHSClient.normalizeImages` (src/unnamed/part_001 lines 1177-1206). -/
def normalizeImages (field : Option Json) : List String :=
  match field with
  | some (.arr l) => (l.map pushJsonLdImage).flatten
  | some v => pushJsonLdImage v
  | none => []

/-- The `pushValue` closure of `BasicXHSClient.normalizeVideos`
(src/unnamed/part_001 lines 1098-1116). -/
def pushJsonLdVideo (v : Json) : List String :=
  if jsTruthy v = false then []
  else
    match v with
    | .str s => if jstrim s ≠ "" then [jstrim s] else []
    | .obj _ =>
      match firstTruthy [v.getField "contentUrl", v.getField "url",
          v.getField "embedUrl"] with
      | some (.str c) => if jstrim c ≠ "" then [jstrim c] else []
      | _ => []
    | _ => []

/-- `BasicXHSClient.normalizeVideos` (src/unnamed/part_001 lines 1096-1125). -/
def normalizeVideos (field : Option Json) : List String :=
  match field with
  | some (.arr l) => (l.map pushJsonLdVideo).flatten
  | some v => pushJsonLdVideo v
  | none => []

/-- `BasicXHSClient.matchesJsonLdType` (src/unnamed/part_001 lines 1164-1175). -/
def matchesJsonLdType (t : Option Json) : Bool :=
  match t with
  | none => false
  | some v =>
    if jsTruthy v = false then false
    else
      (match v with | .arr l => l | _ => [v]).any fun item =>
        match item with
        | .str s =>
          (["NewsArticle", "Article", "BlogPosting", "SocialMediaPosting",
            "CreativeWork"] : List String).contains s
        | _ => false

/-- `BasicXHSClient.findJsonLdCandidate` (src/unnamed/part_001 lines
1127-1162), fueled: the recursion descends strictly into subvalues, so
`Json.size` of the root bounds its depth. -/
def findJsonLdCandidateF : Nat → Json → Option Json
  | 0, _ => none
  | fuel + 1, data =>
    if jsTruthy data = false then none
    else
      match data with
      | .arr l => l.findSome? (findJsonLdCandidateF fuel)
      | .obj _ =>
        if matchesJsonLdType (data.getField "@type") then some data
        else
          match (match data.getField "@graph" with
                 | some g => if jsTruthy g then findJsonLdCandidateF fuel g else none
                 | none => none) with
          | some c => some c
          | none =>
            match data.getField "mainEntity" with
            | some m => if jsTruthy m then findJsonLdCandidateF fuel m else none
            | none => none
      | _ => none

/-- Wrapper with sufficient fuel. -/
def findJsonLdCandidate (data : Json) : Option Json :=
  findJsonLdCandidateF (Json.size data) data

/-- `BasicXHSClient.extractJsonLdData` (src/unnamed/part_001 lines 463-482)
over the already-decoded bodies of the `ld+json` scripts (empty or unparsable
script bodies are already dropped by `safeJsonParse`, the host `JSON.parse`):
the first block yielding a candidate wins. -/
def extractJsonLdData (blocks : List Json) : Option Json :=
  blocks.findSome? findJsonLdCandidate

/-- `BasicXHSClient.isNoteDetail` (src/unnamed/part_001 lines 641-662): an
identifier match on the node or its nested `note` field, or — in the same
test — the structural field-name heuristic. -/
def isNoteDetail (record : Json) (noteId : Option String) : Bool :=
  (match noteId with
   | some nid =>
     record.getStrField "noteId" == some nid ||
     record.getStrField "id" == some nid ||
     (match record.getField "note" with
      | some n =>
        isObjLike n &&
          (n.getStrField "noteId" == some nid || n.getStrField "id" == some nid)
      | none => false)
   | none => false) ||
  ((["noteCard", "noteInfo", "imageList", "imageUrls", "desc", "noteContent"] :
    List String).any fun k => record.hasField k)

/-- The values a BFS step enqueues: `value && typeof value === 'object'`. -/
def objChildren : Json → List Json
  | .obj fs => (fs.map Prod.snd).filter isObjLike
  | .arr l => l.filter isObjLike
  | _ => []

/-- `BasicXHSClient.findNoteDetail` (src/unnamed/part_001 lines 608-639):
breadth-first search returning the first node accepted by `isNoteDetail`.
Fueled by `Json.size` of the root, which bounds the number of object-like
nodes of the decoded (tree-shaped) value; the TS identity-keyed `visited` set
never fires on a tree. -/
def findNoteDetailF (noteId : Option String) : Nat → List Json → Option Json
  | 0, _ => none
  | _, [] => none
  | fuel + 1, j :: queue =>
    if isNoteDetail j noteId then some j
    else findNoteDetailF noteId fuel (queue ++ objChildren j)

/-- Wrapper with sufficient fuel and the initial non-object guard. -/
def findNoteDetail (state : Json) (noteId : Option String) : Option Json :=
  if isObjLike state then findNoteDetailF noteId (Json.size state) [state] else none

/-- The node visit order of the breadth-first search of `findNoteDetail`:
the same fuel/queue mechanics as `findNoteDetailF`, listing every node the
scan pops instead of stopping at the first accepted one. -/
def bfsOrder : Nat → List Json → List Json
  | 0, _ => []
  | _, [] => []
  | fuel + 1, j :: queue => j :: bfsOrder fuel (queue ++ objChildren j)

/-- The full visit order of `findNoteDetail` from a root state (empty when
the root is not object-like, mirroring the initial guard). -/
def bfsVisitOrder (state : Json) : List Json :=
  if isObjLike state then bfsOrder (Json.size state) [state] else []

/-- The nested keys `collectNoteCandidates` follows (src/unnamed/part_001
line 724). -/
def nestedNoteKeys : List String :=
  ["note", "noteCard", "noteInfo", "noteDetail", "mainNote", "targetNote", "data"]

/-- `BasicXHSClient.collectNoteCandidates` (src/unnamed/part_001 lines
706-734): collect up to 20 nested candidate objects in BFS order, following
only the fixed nested keys. -/
def collectNoteCandidatesF : Nat → List Json → List Json → List Json
  | 0, _, acc => acc
  | _, [], acc => acc
  | fuel + 1, j :: queue, acc =>
    if acc.length ≥ 20 then acc
    else
      collectNoteCandidatesF fuel
        (queue ++ (nestedNoteKeys.filterMap (fun k => j.getField k)).filter isObjLike)
        (acc ++ [j])

/-- Wrapper with sufficient fuel (the queue only ever holds distinct subvalues
of the tree-shaped root). -/
def collectNoteCandidates (source : Json) : List Json :=
  collectNoteCandidatesF (Json.size source) [source] []

/-- One `push` of the `extractTextFromDetail` closure: a string value with a
nonempty trim contributes its trim. -/
def segOf (v : Option Json) : List String :=
  match v with
  | some (.str s) => if jstrim s ≠ "" then [jstrim s] else []
  | _ => []

/-- The segments pushed by `BasicXHSClient.extractTextFromDetail`
(src/unnamed/part_001 lines 747-754), in source order. -/
def textSegments (record : Json) : List String :=
  segOf (record.getField "desc") ++ segOf (record.getField "displayDesc") ++
  segOf (record.getField "content") ++ segOf (record.getField "noteContent") ++
  segOf ((record.getField "note").bind (·.getField "desc")) ++
  segOf ((record.getField "note").bind (·.getField "content")) ++
  segOf ((record.getField "noteCard").bind (·.getField "desc")) ++
  segOf ((record.getField "noteCard").bind (·.getField "noteContent"))

/-- `BasicXHSClient.extractTextFromDetail` (src/unnamed/part_001 lines
736-758): deduplicate the segments (JS `Set` keeps first-seen order), join
with blank lines, trim. -/
def extractTextFromDetail (record : Json) : String :=
  jstrim (String.intercalate "\n\n" (dedupFirstByKey (fun s => s) (textSegments record) []))

/-- Upper-casing used by the scene score. -/
def toUpperStr (s : String) : String := String.mk (s.toList.map Char.toUpper)

/-- `BasicXHSClient.getImageSceneScore` (src/unnamed/part_001 lines 1054-1075). -/
def getImageSceneScore (scene : String) : Nat :=
  if scene = "" then 0
  else
    if strIncludes (toUpperStr scene) "ORI" then 5
    else if strIncludes (toUpperStr scene) "DFT" || strIncludes (toUpperStr scene) "DEFAULT"
      then 4
    else if strIncludes (toUpperStr scene) "HD" then 3
    else if strIncludes (toUpperStr scene) "MID" then 2
    else if strIncludes (toUpperStr scene) "PRV" || strIncludes (toUpperStr scene) "PRE" ||
      strIncludes (toUpperStr scene) "LOW" then 1
    else 0

/-- The id-like keys checked by `extractImageId` (src/unnamed/part_001
line 966). -/
def imageIdKeys : List String := ["fileId", "imageId", "id", "traceId", "url_default", "originUrl"]

/-- Scan the id-like keys of one object for a nonempty string value. -/
def idFromKeys (data : Json) : Option String :=
  imageIdKeys.findSome? fun k =>
    match data.getStrField k with
    | some s => if jstrim s ≠ "" then some (jstrim s) else none
    | none => none

/-- `BasicXHSClient.extractImageId` (src/unnamed/part_001 lines 964-989). -/
def extractImageId (data : Json) : Option String :=
  match idFromKeys data with
  | some s => some s
  | none =>
    match data.getField "infoList" with
    | some (.arr (first :: _)) => if isObjLike first then idFromKeys first else none
    | _ => none

/-- The URL of one `infoList` entry (`record.url`, else `record.src`, trimmed;
empty when neither is a string). -/
def infoListEntryUrl (item : Json) : String :=
  match item.getStrField "url" with
  | some s => jstrim s
  | none =>
    match item.getStrField "src" with
    | some s => jstrim s
    | none => ""

/-- The best-scoring entry of an `infoList` (first-encountered wins ties),
as in `chooseFromInfoList` (src/unnamed/part_001 lines 992-1025). -/
def bestInfoEntry (list : List Json) : Option (String × Nat) :=
  list.foldl (fun best item =>
    if isObjLike item = false then best
    else if infoListEntryUrl item = "" then best
    else
      let score := getImageSceneScore
        (match item.getStrField "imageScene" with | some s => s | none => "")
      match best with
      | none => some (infoListEntryUrl item, score)
      | some (_, bs2) => if score > bs2 then some (infoListEntryUrl item, score) else best)
    none

/-- The ordered fallback field names of `selectBestImageUrl`
(src/unnamed/part_001 lines 1032-1042). -/
def imageCandidateKeys : List String :=
  ["originUrl", "url", "urlDefault", "imageUrl", "contentUrl", "cover", "src",
   "thumbnailUrl", "urlPre"]

/-- The fallback scan over the candidate field names. -/
def fallbackImageField (data : Json) : Option String :=
  imageCandidateKeys.findSome? fun k =>
    match data.getStrField k with
    | some s => if jstrim s ≠ "" then some (jstrim s) else none
    | none => none

/-- `BasicXHSClient.selectBestImageUrl` (src/unnamed/part_001 lines 991-1052). -/
def selectBestImageUrl (data : Json) : Option String :=
  match data.getField "infoList" with
  | some (.arr list) =>
    match bestInfoEntry list with
    | some (u, _) => some u
    | none => fallbackImageField data
  | _ => fallbackImageField data

/-- Mutable state of `extractImagesFromDetail`: collected URLs and the seen
image-identity set. -/
structure ImgAcc where
  results : List String
  seenIds : List String
  deriving DecidableEq

/-- The `pushValue` closure of `extractImagesFromDetail` (src/unnamed/part_001
lines 873-908), with the mutable state made explicit; fueled for the array
recursion. -/
def pushImgValue : Nat → ImgAcc → Json → ImgAcc
  | 0, acc, _ => acc
  | fuel + 1, acc, v =>
    if jsTruthy v = false then acc
    else
      match v with
      | .arr l => l.foldl (pushImgValue fuel) acc
      | .str s =>
        if jstrim s ≠ "" then { acc with results := acc.results ++ [jstrim s] } else acc
      | .obj _ =>
        match extractImageId v with
        | some iid =>
          if iid ∈ acc.seenIds then acc
          else
            match selectBestImageUrl v with
            | some sel => ⟨acc.results ++ [sel], acc.seenIds ++ [iid]⟩
            | none => acc
        | none =>
          match selectBestImageUrl v with
          | some sel => { acc with results := acc.results ++ [sel] }
          | none => acc
      | _ => acc

/-- The primary image-list candidates (src/unnamed/part_001 lines 911-920),
in priority order. -/
def primaryImageCandidates (record : Json) : List (Option Json) :=
  [record.getField "imageList",
   (record.getField "noteCard").bind (·.getField "imageList"),
   (record.getField "note").bind (·.getField "imageList"),
   record.getField "imageUrls",
   (record.getField "noteCard").bind (·.getField "imageUrls"),
   (record.getField "note").bind (·.getField "imageUrls"),
   record.getField "images",
   record.getField "imagesList"]

/-- The primary loop (lines 922-932): process each nonempty array candidate,
stopping after the first one that yields results. -/
def processPrimary (fuel : Nat) : List (Option Json) → ImgAcc → ImgAcc
  | [], acc => acc
  | c :: rest, acc =>
    match c with
    | some (.arr (x :: xs)) =>
      let acc2 := (x :: xs).foldl (pushImgValue fuel) acc
      if acc2.results ≠ [] then acc2 else processPrimary fuel rest acc2
    | _ => processPrimary fuel rest acc

/-- The cover candidates tried only when the primary fields yielded nothing
(lines 934-948). -/
def coverImageCandidates (record : Json) : List (Option Json) :=
  [record.getField "cover",
   (record.getField "noteCard").bind (·.getField "cover"),
   (record.getField "note").bind (·.getField "cover")]

/-- The cover loop (lines 942-947). -/
def processCover (fuel : Nat) : List (Option Json) → ImgAcc → ImgAcc
  | [], acc => acc
  | c :: rest, acc =>
    let acc2 := match c with
      | some v => pushImgValue fuel acc v
      | none => acc
    if acc2.results ≠ [] then acc2 else processCover fuel rest acc2

/-- `BasicXHSClient.extractImagesFromDetail` (src/unnamed/part_001 lines
868-962). -/
def extractImagesFromDetail (record : Json) : List String :=
  let acc := processPrimary (Json.size record) (primaryImageCandidates record) ⟨[], []⟩
  if acc.results = [] then
    (processCover (Json.size record) (coverImageCandidates record) acc).results
  else acc.results

/-- The candidate URL-bearing keys of the video `pushValue`
(src/unnamed/part_001 lines 782-795). -/
def videoCandidateKeys : List String :=
  ["playUrl", "play_url", "videoUrl", "mainUrl", "masterUrl", "backupUrl", "url",
   "contentUrl", "h264", "h265", "mp4Url", "dashUrl"]

/-- The `pushValue` closure of `extractVideosFromDetail` (src/unnamed/part_001
lines 764-809). -/
def pushVidValue : Nat → List String → Json → List String
  | 0, results, _ => results
  | fuel + 1, results, v =>
    if jsTruthy v = false then results
    else
      match v with
      | .arr l => l.foldl (pushVidValue fuel) results
      | .str s =>
        if jstrim s ≠ "" ∧ strStartsWith (jstrim s) "http" = true then results ++ [jstrim s]
        else results
      | .obj _ =>
        match videoCandidateKeys.findSome? (fun k =>
          match v.getStrField k with
          | some raw =>
            if jstrim raw ≠ "" ∧ strStartsWith (jstrim raw) "http" = true
            then some (jstrim raw) else none
          | none => none) with
        | some u => results ++ [u]
        | none => results
      | _ => results

/-- The top-level candidates of `extractVideosFromDetail`
(src/unnamed/part_001 lines 811-823), in source order. -/
def videoTopCandidates (record : Json) : List (Option Json) :=
  [record.getField "videoUrl", record.getField "mainUrl", record.getField "masterUrl",
   record.getField "backupUrl", record.getField "playUrl", record.getField "video",
   record.getField "videos", record.getField "videoInfo", record.getField "videoList",
   (record.getField "note").bind (·.getField "video"),
   (record.getField "noteCard").bind (·.getField "video")]

/-- Case-insensitive prefix test. -/
def ciStartsWith (p s : List Char) : Bool :=
  listStartsWith (p.map Char.toLower) (s.map Char.toLower)

/-- Whether the list begins with `.` followed by a video extension and then
the end or a `?` (one position of `/\.(mp4|m3u8|flv|m4s)(\?|$)/i`). -/
def vidExtHere : List Char → Bool
  | '.' :: rest =>
    (["mp4", "m3u8", "flv", "m4s"] : List String).any fun ext =>
      ciStartsWith ext.toList rest &&
        (match rest.drop ext.length with
         | [] => true
         | '?' :: _ => true
         | _ => false)
  | _ => false

/-- Whether a predicate holds of some suffix. -/
def anySuffix (p : List Char → Bool) : List Char → Bool
  | [] => p []
  | c :: rest => p (c :: rest) || anySuffix p rest

/-- The `VIDEO_PATTERN` regex test (src/unnamed/part_001 line 833). -/
def hasVideoExt (s : String) : Bool := anySuffix vidExtHere s.toList

/-- All values of an object or array (JS `Object.entries` values). -/
def allValues : Json → List Json
  | .obj fs => fs.map Prod.snd
  | .arr l => l
  | _ => []

/-- The bounded fallback scan of `extractVideosFromDetail`
(src/unnamed/part_001 lines 829-852): breadth-first walk collecting
http-prefixed strings matching the video-extension pattern, capped at 10
results (checked between nodes). -/
def vidBfsF : Nat → List Json → List String → List String
  | 0, _, results => results
  | _, [], results => results
  | fuel + 1, j :: queue, results =>
    if results.length ≥ 10 then results
    else
      vidBfsF fuel (queue ++ (allValues j).filter isObjLike)
        ((allValues j).foldl (fun res v =>
          match v with
          | .str s =>
            if strStartsWith s "http" && hasVideoExt s then res ++ [jstrim s] else res
          | _ => res) results)

/-- `BasicXHSClient.extractVideosFromDetail` (src/unnamed/part_001 lines
760-866): direct candidates first, the bounded BFS fallback when they yield
nothing, then video dedup/normalization. -/
def extractVideosFromDetail (record : Json) : List String :=
  deduplicateVideoUrls
    (match (videoTopCandidates record).foldl (fun res c =>
        match c with
        | some v => pushVidValue (Json.size record) res v
        | none => res) [] with
     | [] => vidBfsF (Json.size record) [record] []
     | r => r)

/-- The note record built by `parseBasicNote` (the `BasicNote` interface of
the repository's types).  The TS `videos` field is optional; absence is
modeled as `[]` (the code only appends to it and dedups when nonempty).
`coverImage` keeps its optionality. -/
structure BasicNote where
  title : String
  content : String
  images : List String
  coverImage : Option String
  videos : List String
  url : String
  deriving DecidableEq

/-- One candidate step of `BasicXHSClient.mergeNoteDetail`
(src/unnamed/part_001 lines 667-703): a non-empty candidate title or text
OVERWRITES the note's current title/content; candidate images and videos are
appended. -/
def mergeCandidate (note : BasicNote) (cand : Json) : BasicNote :=
  if isObjLike cand = false then note
  else
    let title := firstString [cand.getField "title", cand.getField "noteTitle",
      cand.getField "displayTitle", cand.getField "shareTitle", cand.getField "name",
      (cand.getField "note").bind (·.getField "title"),
      (cand.getField "noteCard").bind (·.getField "title")]
    let note1 := if title ≠ "" then { note with title := title } else note
    let content := extractTextFromDetail cand
    let note2 := if content ≠ "" then { note1 with content := content } else note1
    let imgs := extractImagesFromDetail cand
    let note3 := if imgs ≠ [] then { note2 with images := note2.images ++ imgs } else note2
    let vids := extractVideosFromDetail cand
    if vids ≠ [] then { note3 with videos := note3.videos ++ vids } else note3

/-- `BasicXHSClient.mergeNoteDetail` (src/unnamed/part_001 lines 664-704). -/
def mergeNoteDetail (note : BasicNote) (detail : Json) : BasicNote :=
  (collectNoteCandidates detail).foldl mergeCandidate note

/-- The document-level inputs of `parseBasicNote` (src/unnamed/part_001 lines
388-461).  The cheerio document queries and the host `JSON.parse` are external
collaborators; this record carries their results: the resolved meta-tag texts
(`og:title`/`<title>`, `og:description`/`description`, `og:image`), the
decoded bodies of the `ld+json` scripts that parsed, the decoded inline state
found by `extractInitialState` (if any), and the note id resolved by
`extractNoteIdFromUrl`/`extractNoteIdFromPage`. -/
structure DocModel where
  metaTitle : String
  metaDescription : String
  metaCover : String
  jsonLdBlocks : List Json
  initialState : Option Json
  noteId : Option String
  url : String

/-- The JSON-LD layer of `parseBasicNote` (src/unnamed/part_001 lines
401-424): a nonempty JSON-LD title/body is written into the note, JSON-LD
images/videos are appended. -/
def applyJsonLd (note : BasicNote) (blocks : List Json) : BasicNote :=
  match extractJsonLdData blocks with
  | some jsonLd =>
    let jsonTitle := firstString [jsonLd.getField "headline",
      jsonLd.getField "alternativeHeadline", jsonLd.getField "name"]
    let jsonContent := firstString [jsonLd.getField "articleBody",
      jsonLd.getField "description"]
    let jsonImages := normalizeImages (jsonLd.getField "image")
    let jsonVideos := normalizeVideos (firstNonNullish [jsonLd.getField "video",
      jsonLd.getField "videoUrl", jsonLd.getField "videoObject"])
    let n1 := if jsonTitle ≠ "" then { note with title := jsonTitle } else note
    let n2 := if jsonContent ≠ "" then { n1 with content := jsonContent } else n1
    let n3 := if jsonImages ≠ [] then { n2 with images := n2.images ++ jsonImages } else n2
    if jsonVideos ≠ [] then { n3 with videos := n3.videos ++ jsonVideos } else n3
  | none => note

/-- The inline-state layer of `parseBasicNote` (src/unnamed/part_001 lines
426-438): when a note detail is found in the decoded inline state, it is
merged over the note by `mergeNoteDetail`. -/
def applyInlineState (note : BasicNote) (state : Option Json)
    (noteId : Option String) : BasicNote :=
  match state with
  | some st =>
    match findNoteDetail st noteId with
    | some detail => mergeNoteDetail note detail
    | none => note
  | none => note

/-- The meta-tag fallbacks of `parseBasicNote` (src/unnamed/part_001 lines
440-450): meta values fill only still-empty title/body/images. -/
def applyMetaFallbacks (note : BasicNote)
    (metaTitle metaDescription metaCover : String) : BasicNote :=
  let n1 :=
    if jstrim note.title = "" then
      { note with title := if jstrim metaTitle ≠ "" then jstrim metaTitle
          else "未能获取标题" }
    else note
  let n2 :=
    if jstrim n1.content = "" then { n1 with content := jstrim metaDescription } else n1
  if n2.images = [] ∧ metaCover ≠ "" then
    { n2 with images := n2.images ++ [jstrim metaCover] }
  else n2

/-- The final pass of `parseBasicNote` (src/unnamed/part_001 lines 452-458):
trim title and body (with the fixed fallback literal for an empty title),
deduplicate images and videos, set the cover image. -/
def finalizeNote (note : BasicNote) (metaCover : String) : BasicNote :=
  let n1 := { note with
    title := if jstrim note.title ≠ "" then jstrim note.title else "未能获取标题",
    content := jstrim note.content,
    images := deduplicateUrls note.images,
    videos := if note.videos ≠ [] then deduplicateVideoUrls note.videos else note.videos }
  { n1 with
    coverImage := match n1.images.head? with
      | some i => some i
      | none => if metaCover ≠ "" then some (jstrim metaCover) else none }

/-- `BasicXHSClient.parseBasicNote` (src/unnamed/part_001 lines 388-461):
JSON-LD layer, then the inline-state note detail merged by `mergeNoteDetail`,
then meta-tag fallbacks for still-empty fields, then the final trim, dedup
and cover-image pass. -/
def parseBasicNote (d : DocModel) : BasicNote :=
  finalizeNote
    (applyMetaFallbacks
      (applyInlineState (applyJsonLd ⟨"", "", [], none, [], d.url⟩ d.jsonLdBlocks)
        d.initialState d.noteId)
      d.metaTitle d.metaDescription d.metaCover)
    d.metaCover

/-- The JSON-LD block of the counterexample document: an `Article` with a
headline and an article body. -/
def ldBlockC1 : Json :=
  .obj [("@type", .str "Article"), ("headline", .str "LD Title"),
    ("articleBody", .str "LD Body")]

/-- The inline state of the counterexample document: a note record (it has a
`desc` field) carrying its own title and body. -/
def stateC1 : Json :=
  .obj [("title", .str "State Title"), ("desc", .str "State Body")]

/-- The counterexample document: JSON-LD Article block and an inline-state
note record are both present. -/
def docC1 : DocModel :=
  ⟨"", "", "", [ldBlockC1], some stateC1, none, "https://www.xiaohongshu.com/explore/a1"⟩

/-- Spec-side reading of "carries an identifier field equal to the target
identifier" (on the node or its directly nested `note` field). -/
def carriesId (j : Json) (nid : String) : Bool :=
  j.getStrField "noteId" == some nid || j.getStrField "id" == some nid ||
  (match j.getField "note" with
   | some n =>
     isObjLike n && (n.getStrField "noteId" == some nid || n.getStrField "id" == some nid)
   | none => false)

/-- A structurally note-like node without the target identifier. -/
def nodeA : Json := .obj [("desc", .str "x")]

/-- A node carrying the target identifier. -/
def nodeB : Json := .obj [("noteId", .str "target"), ("imageList", .arr [])]

/-- A state whose first BFS-reachable note-like node is `nodeA` while `nodeB`
carries the searched identifier. -/
def stateC3 : Json := .obj [("a", nodeA), ("b", nodeB)]

/-! ## C5: the LRU result cache of `XHSClient` (src/src/client.ts lines 16-118) -/

/-- A cache entry (`CacheEntry`, src/src/client.ts lines 19-23). -/
structure CacheEntry (α : Type) where
  data : α
  timestamp : Nat
  accessCount : Nat
  deriving DecidableEq

/-- The mutable cache state: the JS `Map` as an insertion-ordered association
list with unique keys, and the LRU access order (least recently used first). -/
structure CacheState (α : Type) where
  cache : List (String × CacheEntry α)
  accessOrder : List String
  deriving DecidableEq

/-- `Map.prototype.get`. -/
def mapGet {β : Type} : List (String × β) → String → Option β
  | [], _ => none
  | (k, v) :: rest, key => if k = key then some v else mapGet rest key

/-- `Map.prototype.set`: replace in place, or append a new entry. -/
def mapSet {β : Type} : List (String × β) → String → β → List (String × β)
  | [], key, v => [(key, v)]
  | (k, w) :: rest, key, v =>
    if k = key then (key, v) :: rest else (k, w) :: mapSet rest key v

/-- `Map.prototype.delete`. -/
def mapDelete {β : Type} (m : List (String × β)) (key : String) : List (String × β) :=
  m.filter (fun p => p.1 != key)

/-- `XHSClient.removeFromAccessOrder` (lines 113-118): splice out the first
occurrence. -/
def removeFromAccessOrder (order : List String) (url : String) : List String :=
  order.erase url

/-- `XHSClient.updateAccessOrder` (lines 107-110): move the key to the
most-recent end. -/
def updateAccessOrder (order : List String) (url : String) : List String :=
  removeFromAccessOrder order url ++ [url]

/-- `XHSClient.getCachedContent` (src/src/client.ts lines 70-85), with the
clock and the resolved TTL (`config.cacheTimeout || Time.hour`) passed
explicitly; returns the hit value and the updated state. -/
def getCachedContent {α : Type} (st : CacheState α) (url : String) (now ttl : Nat) :
    Option α × CacheState α :=
  match mapGet st.cache url with
  | none => (none, st)
  | some e =>
    if now - e.timestamp ≥ ttl then
      (none, ⟨mapDelete st.cache url, removeFromAccessOrder st.accessOrder url⟩)
    else
      (some e.data,
        ⟨mapSet st.cache url { e with accessCount := e.accessCount + 1 },
         updateAccessOrder st.accessOrder url⟩)

/-- The fixed capacity `MAX_CACHE_SIZE` (src/src/client.ts line 16). -/
def MAX_CACHE_SIZE : Nat := 200

/-- `XHSClient.setCachedContent` (src/src/client.ts lines 88-104): when the
map is at capacity and the key is new, evict the head of the access order
(unless it is missing or the empty string, which is falsy in JS), then insert
and refresh recency. -/
def setCachedContent {α : Type} (st : CacheState α) (url : String) (content : α)
    (now : Nat) : CacheState α :=
  let st1 :=
    if st.cache.length ≥ MAX_CACHE_SIZE ∧ (mapGet st.cache url).isNone then
      match st.accessOrder with
      | lru :: rest => if lru = "" then st else ⟨mapDelete st.cache lru, rest⟩
      | [] => st
    else st
  ⟨mapSet st1.cache url ⟨content, now, 1⟩, updateAccessOrder st1.accessOrder url⟩

/-- 200 distinct keys filling the cache to capacity. -/
def cacheKeys200 : List String := (List.range MAX_CACHE_SIZE).map (fun i => "k" ++ toString i)

/-- A full cache whose least-recently-used key is `k0`. -/
def bigCache : CacheState Nat :=
  ⟨cacheKeys200.map (fun k => (k, ⟨0, 0, 1⟩)), cacheKeys200⟩

/-! ## C8 and C10: URL validation and the parse gate (src/src/utils.ts) -/

/-- `isPrivateIP` (src/src/utils.ts lines 292-306): the anchored prefix
regexes over the private, loopback and link-local ranges. -/
def isPrivateIP (hostname : String) : Bool :=
  strStartsWith hostname "10." ||
  ((List.range 16).any fun i =>
    strStartsWith hostname ("172." ++ toString (16 + i) ++ ".")) ||
  strStartsWith hostname "192.168." ||
  strStartsWith hostname "127." ||
  strStartsWith hostname "169.254." ||
  hostname == "::1" ||
  strStartsWith hostname "fc00:" ||
  strStartsWith hostname "fe80:"

/-- `isLocalhost` (src/src/utils.ts lines 308-310). -/
def isLocalhost (hostname : String) : Bool :=
  hostname == "localhost" || hostname == "0.0.0.0" || hostname == "::1"

/-- Lower-casing applied to hosts and configured domains
(`toLowerCase`, ASCII as in the inputs concerned). -/
def toLowerStr (s : String) : String := String.mk (s.toList.map Char.toLower)

/-- One configured domain test of `validateUrl` (src/src/utils.ts lines
282-286): lower-case and trim the domain, skip empties, accept an exact host
match or a dot-separated subdomain. -/
def domainMatch (host : String) (domain : String) : Bool :=
  jstrim (toLowerStr domain) != "" &&
    (host == jstrim (toLowerStr domain) ||
     strEndsWith host ("." ++ jstrim (toLowerStr domain)))

/-- `validateUrl` (src/src/utils.ts lines 264-290): URL parse (our model only
parses absolute http/https URLs, mirroring the `catch` and the protocol
check), SSRF host rejection, then the allowed-domain test. -/
def validateUrl (url : String) (allowedDomains : List String) : Bool :=
  match parseUrl url with
  | none => false
  | some u =>
    if isPrivateIP (toLowerStr u.host) || isLocalhost (toLowerStr u.host) then false
    else allowedDomains.any (domainMatch (toLowerStr u.host))

/-- ASCII alphanumeric test (the regex class `[a-zA-Z0-9]`). -/
def isAlnum (c : Char) : Bool :=
  ('a' ≤ c && c ≤ 'z') || ('A' ≤ c && c ≤ 'Z') || ('0' ≤ c && c ≤ '9')

/-- Matching of the patterns `lit([a-zA-Z0-9]+)` used by `parseXHSUrl`: the
literal prefix at the leftmost position followed by at least one
alphanumeric, with the greedy capture. -/
def findLitAlnum (lit : List Char) : List Char → Option (List Char)
  | [] => none
  | c :: rest =>
    if listStartsWith lit (c :: rest) then
      match (c :: rest).drop lit.length with
      | a :: after =>
        if isAlnum a then some ((a :: after).takeWhile isAlnum)
        else findLitAlnum lit rest
      | [] => findLitAlnum lit rest
    else findLitAlnum lit rest

/-- The two link kinds `parseXHSUrl` produces (`ParsedURL.type`). -/
inductive UrlKind where
  | note
  | user
  deriving DecidableEq

/-- The parsed-link record (`ParsedURL` in src/src/types.ts). -/
structure ParsedURL where
  original : String
  normalized : String
  kind : UrlKind
  id : String
  deriving DecidableEq

/-- The characters of the dangerous-character gate (the regex `[<>"'\\]`). -/
def dangerousChars : List Char := ['<', '>', dq, sqc, bs]

/-- `parseXHSUrl` (src/src/utils.ts lines 10-61): trim, the length gate, the
dangerous-character gate, then the short-link, note and user-profile
patterns. -/
def parseXHSUrl (url : String) : Option ParsedURL :=
  if (jstrim url).length > 2048 then none
  else if (jstrim url).toList.any (fun c => dangerousChars.contains c) then none
  else
    match findLitAlnum "xhslink.com/".toList (jstrim url).toList with
    | some id => some ⟨jstrim url, jstrim url, .note, String.mk id⟩
    | none =>
      match (findLitAlnum "xiaohongshu.com/explore/".toList (jstrim url).toList).orElse
          (fun _ =>
            (findLitAlnum "xiaohongshu.com/discovery/item/".toList
              (jstrim url).toList).orElse
            (fun _ =>
              findLitAlnum "xiaohongshu.com/search_result/".toList
                (jstrim url).toList)) with
      | some id =>
        some ⟨jstrim url, "https://www.xiaohongshu.com/explore/" ++ String.mk id, .note,
          String.mk id⟩
      | none =>
        match findLitAlnum "xiaohongshu.com/user/profile/".toList (jstrim url).toList with
        | some id => some ⟨jstrim url, jstrim url, .user, String.mk id⟩
        | none => none

/-- The validation/parse prefix of `prepareLink` (src/unnamed/part_002 lines
195-213): when the URL passes `validateUrl` and `parseXHSUrl`, `prepareLink`
dispatches `client.getContent(parsedUrl.normalized, …)`.  The returned value
is the normalized URL handed to the cache-backed extraction path; `none`
means no dispatch happens for this candidate. -/
def prepareLinkDispatch (allowed : List String) (url : String) : Option String :=
  if validateUrl url allowed then (parseXHSUrl url).map (·.normalized) else none

/-! ## C6: the batch resolver (src/unnamed/part_002 lines 195-243 and 311-337) -/

/-- Split a list into the batches of `MAX_CONCURRENT_PARSES = 3` used by
`parseLinksWithLimit` (src/unnamed/part_002 lines 319-321). -/
def chunks3 {γ : Type} : List γ → List (List γ)
  | [] => []
  | [a] => [[a]]
  | [a, b] => [[a, b]]
  | a :: b :: c :: rest => [a, b, c] :: chunks3 rest

/-- One batch of `parseLinksWithLimit` (src/unnamed/part_002 lines 322-335),
sequentialized (the `results.has`/`results.add` pair runs without an
intervening await, so the delivered set is the same under any interleaving;
only the delivery order is unspecified).  `outcome n` abstracts whether
`prepareLink` returns a prepared record for normalized URL `n` (fetch success
and the content filters).  Returns the dispatched normalized URLs, the
delivered (callback) normalized URLs, and the updated `results` set. -/
def runBatch (allowed : List String) (outcome : String → Bool) :
    List String → List String → List String × List String × List String
  | [], seen => ([], [], seen)
  | u :: rest, seen =>
    match prepareLinkDispatch allowed u with
    | none => runBatch allowed outcome rest seen
    | some n =>
      if outcome n ∧ n ∉ seen then
        ((runBatch allowed outcome rest (n :: seen)).1.cons n,
         (runBatch allowed outcome rest (n :: seen)).2.1.cons n,
         (runBatch allowed outcome rest (n :: seen)).2.2)
      else
        ((runBatch allowed outcome rest seen).1.cons n,
         (runBatch allowed outcome rest seen).2.1,
         (runBatch allowed outcome rest seen).2.2)

/-- Batches processed strictly in order with the `results` set threaded
through (src/unnamed/part_002 lines 317-336). -/
def runBatches (allowed : List String) (outcome : String → Bool) :
    List (List String) → List String → List String × List String
  | [], _ => ([], [])
  | batch :: more, seen =>
    ((runBatch allowed outcome batch seen).1 ++
      (runBatches allowed outcome more (runBatch allowed outcome batch seen).2.2).1,
     (runBatch allowed outcome batch seen).2.1 ++
      (runBatches allowed outcome more (runBatch allowed outcome batch seen).2.2).2)

/-- `parseLinksWithLimit` (src/unnamed/part_002 lines 311-337): the full run
over the batches of three, starting from an empty `results` set; the first
component lists every dispatch to the extraction path, the second the
delivered results. -/
def parseLinksWithLimit (allowed : List String) (outcome : String → Bool)
    (urls : List String) : List String × List String :=
  runBatches allowed outcome (chunks3 urls) []

/-- The default allowed domains (src/unnamed/part_002 line 13). -/
def xhsAllowed : List String := ["xiaohongshu.com", "www.xiaohongshu.com", "xhslink.com"]

/-- A raw candidate already in normalized form. -/
def rawUrl1 : String := "https://www.xiaohongshu.com/explore/abc123"

/-- A distinct raw candidate normalizing to the same URL. -/
def rawUrl2 : String := "http://xiaohongshu.com/explore/abc123"

/-! ## C7: `XHSClient.getContent` (src/src/client.ts lines 36-67 and 471-499) -/

/-- `XHSClient.getContent`, first variant (src/src/client.ts lines 36-67):
the cache-hit short circuit, then the fetch/parse attempt (`attempt` is the
body of the `try`: a thrown error after retry exhaustion, or the parsed
content); its `catch` re-throws the fixed sanitized message. -/
def getContentV1 {α : Type} (enableCache forceRefresh : Bool) (cached : Option α)
    (attempt : Except Unit (Option α)) : Except String (Option α) :=
  if !forceRefresh && enableCache && cached.isSome then .ok cached
  else
    match attempt with
    | .ok c => .ok c
    | .error _ => .error "内容获取失败"

/-- `XHSClient.getContent`, second variant (src/src/client.ts lines 471-499):
identical control flow, but the `catch` returns `null`. -/
def getContentV2 {α : Type} (enableCache forceRefresh : Bool) (cached : Option α)
    (attempt : Except Unit (Option α)) : Except String (Option α) :=
  if !forceRefresh && enableCache && cached.isSome then .ok cached
  else
    match attempt with
    | .ok c => .ok c
    | .error _ => .ok none

/-! ## Theorems -/

theorem dropWhile_head_false {α : Type} (p : α → Bool) (l : List α) (c : α) (rest : List α)
    (h : l.dropWhile p = c :: rest) : p c = false := by
  have hd := List.head?_dropWhile_not p l
  rw [h] at hd
  simpa using hd

theorem dropWhile_eq_self_of_head {α : Type} (p : α → Bool) (l : List α)
    (h : ∀ c, l.head? = some c → p c = false) : l.dropWhile p = l := by
  cases l with
  | nil => rfl
  | cons a t =>
    have := h a rfl
    rw [List.dropWhile_cons_of_neg]
    simp [this]

theorem dropWhile_eq_drop_aux {α : Type} (p : α → Bool) (l : List α) :
    l.dropWhile p = l.drop (l.takeWhile p).length := by
  induction l with
  | nil => rfl
  | cons a t ih =>
    by_cases h : p a
    · simp [List.dropWhile_cons, List.takeWhile_cons, h, ih]
    · simp [List.dropWhile_cons, List.takeWhile_cons, h]

theorem rev_head? {α : Type} (l : List α) : l.reverse.head? = l.getLast? := by
  induction l with
  | nil => rfl
  | cons a t ih =>
    cases t with
    | nil => rfl
    | cons b u =>
      rw [List.getLast?_cons_cons, ← ih, List.reverse_cons]
      cases hr : (b :: u).reverse with
      | nil => exact absurd hr (by simp)
      | cons x xs => simp [hr]

theorem rev_getLast? {α : Type} (l : List α) : l.reverse.getLast? = l.head? := by
  have := rev_head? l.reverse
  rw [List.reverse_reverse] at this
  rw [← this]

theorem getLast?_drop_of_ne_nil {α : Type} (l : List α) (n : Nat) (h : l.drop n ≠ []) :
    (l.drop n).getLast? = l.getLast? := by
  conv_rhs => rw [← List.take_append_drop n l]
  rw [List.getLast?_append_of_ne_nil _ h]

theorem trimL_getLast (l : List Char) (c : Char) (h : (trimL l).getLast? = some c) :
    isJsWs c = false := by
  unfold trimL at h
  rw [rev_getLast?] at h
  cases hm : ((l.dropWhile isJsWs).reverse.dropWhile isJsWs) with
  | nil => rw [hm] at h; simp at h
  | cons a t =>
    rw [hm] at h
    simp at h
    subst h
    exact dropWhile_head_false _ _ _ _ hm

theorem trimL_head (l : List Char) (c : Char) (h : (trimL l).head? = some c) :
    isJsWs c = false := by
  unfold trimL at h
  rw [rev_head?] at h
  set d1 := l.dropWhile isJsWs with hd1
  have hdrop : d1.reverse.dropWhile isJsWs = d1.reverse.drop (d1.reverse.takeWhile isJsWs).length :=
    dropWhile_eq_drop_aux _ _
  rw [hdrop] at h
  have hne : d1.reverse.drop (d1.reverse.takeWhile isJsWs).length ≠ [] := by
    intro hnil
    rw [hnil] at h
    simp at h
  rw [getLast?_drop_of_ne_nil _ _ hne, rev_getLast?] at h
  cases hh : d1 with
  | nil => rw [hh] at h; simp at h
  | cons a t =>
    rw [hh] at h
    simp at h
    subst h
    exact dropWhile_head_false _ _ _ _ hh

theorem trimL_fix_of_ends (l : List Char)
    (h1 : ∀ c, l.head? = some c → isJsWs c = false)
    (h2 : ∀ c, l.getLast? = some c → isJsWs c = false) : trimL l = l := by
  unfold trimL
  rw [dropWhile_eq_self_of_head _ _ h1]
  rw [dropWhile_eq_self_of_head _ _ (by
    intro c hc
    rw [rev_head?] at hc
    exact h2 c hc)]
  exact List.reverse_reverse l

theorem trimL_idem (l : List Char) : trimL (trimL l) = trimL l :=
  trimL_fix_of_ends _ (trimL_head l) (trimL_getLast l)

theorem toList_jstrim (s : String) : (jstrim s).toList = trimL s.toList := rfl

theorem jstrim_idem (s : String) : jstrim (jstrim s) = jstrim s :=
  congrArg String.mk (trimL_idem s.toList)

theorem mem_dropWhile_of_not {α : Type} (p : α → Bool) (l : List α) (c : α)
    (hc : p c = false) (h : c ∈ l) : c ∈ l.dropWhile p := by
  induction l with
  | nil => simp at h
  | cons a t ih =>
    by_cases hp : p a
    · rw [List.dropWhile_cons_of_pos hp]
      rcases List.mem_cons.mp h with rfl | hmem
      · rw [hp] at hc; simp at hc
      · exact ih hmem
    · rw [List.dropWhile_cons_of_neg hp]
      exact h

theorem mem_trimL_of_not_ws (l : List Char) (c : Char)
    (hc : isJsWs c = false) (h : c ∈ l) : c ∈ trimL l := by
  unfold trimL
  rw [List.mem_reverse]
  apply mem_dropWhile_of_not _ _ _ hc
  rw [List.mem_reverse]
  exact mem_dropWhile_of_not _ _ _ hc h

theorem isCloseAtB_zero (st : ScanState) (c : Char) (rest : List Char) :
    isCloseAtB st (c :: rest) 0 = closesHere st c := rfl

theorem isCloseAtB_succ (st : ScanState) (c : Char) (rest : List Char) (k : Nat) :
    isCloseAtB st (c :: rest) (k + 1) = isCloseAtB (stepState st c) rest k := rfl

theorem findClose_eq_some_iff (cs : List Char) :
    ∀ (st : ScanState) (k : Nat),
    findClose cs st = some k ↔
      (isCloseAtB st cs k = true ∧ ∀ j, j < k → isCloseAtB st cs j = false) := by
  induction cs with
  | nil =>
    intro st k
    simp [findClose, isCloseAtB]
  | cons c rest ih =>
    intro st k
    by_cases hc : closesHere st c = true
    · constructor
      · intro h
        simp only [findClose, hc, if_pos] at h
        have hk : k = 0 := by injection h with h2; omega
        subst hk
        exact ⟨by rw [isCloseAtB_zero]; exact hc, by intro j hj; omega⟩
      · intro ⟨h1, h2⟩
        cases k with
        | zero => simp [findClose, hc]
        | succ n =>
          have := h2 0 (Nat.succ_pos n)
          rw [isCloseAtB_zero, hc] at this
          exact absurd this (by simp)
    · have hcf : closesHere st c = false := by
        cases hcc : closesHere st c
        · rfl
        · exact absurd hcc hc
      constructor
      · intro h
        simp only [findClose, hcf, Bool.false_eq_true, if_false, Option.map_eq_some'] at h
        obtain ⟨m, hm, hmk⟩ := h
        have ⟨h1, h2⟩ := (ih (stepState st c) m).mp hm
        subst hmk
        refine ⟨by rw [isCloseAtB_succ]; exact h1, ?_⟩
        intro j hj
        cases j with
        | zero => rw [isCloseAtB_zero]; exact hcf
        | succ i =>
          rw [isCloseAtB_succ]
          exact h2 i (by omega)
      · intro ⟨h1, h2⟩
        cases k with
        | zero =>
          rw [isCloseAtB_zero, hcf] at h1
          exact absurd h1 (by simp)
        | succ n =>
          rw [isCloseAtB_succ] at h1
          have hrec : findClose rest (stepState st c) = some n := by
            rw [ih]
            refine ⟨h1, ?_⟩
            intro j hj
            have := h2 (j + 1) (by omega)
            rw [isCloseAtB_succ] at this
            exact this
          simp [findClose, hcf, hrec]

theorem findClose_eq_none_of_no_close (cs : List Char) (st : ScanState)
    (h : ∀ k, isCloseAtB st cs k = false) : findClose cs st = none := by
  cases hf : findClose cs st with
  | none => rfl
  | some k =>
    have := (findClose_eq_some_iff cs st k).mp hf
    rw [h k] at this
    exact absurd this.1 (by simp)

/-- C2: for every script text and marker string, the balanced-brace scanner
returns null when the marker is absent, when no opening brace follows its
first occurrence, or when the tracked depth (with string-literal and escape
handling) never returns to zero; and when a matching closing brace exists
(the least position whose unescaped closing brace outside a string returns
the depth to zero), the scanned candidate span is exactly the substring from
the first opening brace after the marker through that closing brace. -/
theorem c2_balanced_brace_scanner (script marker : List Char) :
    (indexOfSub script marker = none → extractAssignmentSpan script marker = none)
    ∧ (∀ i, indexOfSub script marker = some i →
        findCharIdxFrom script i obr = none → extractAssignmentSpan script marker = none)
    ∧ (∀ i s, indexOfSub script marker = some i → findCharIdxFrom script i obr = some s →
        ((∀ k, isCloseAtB scanInit (script.drop s) k = false) →
            extractAssignmentSpan script marker = none)
        ∧ (∀ k, isCloseAtB scanInit (script.drop s) k = true →
            (∀ j, j < k → isCloseAtB scanInit (script.drop s) j = false) →
            extractAssignmentSpan script marker = some ((script.drop s).take (k + 1)))) := by
  refine ⟨?_, ?_, ?_⟩
  · intro h
    simp only [extractAssignmentSpan, h]
  · intro i hi hb
    simp only [extractAssignmentSpan, hi, hb]
  · intro i s hi hb
    constructor
    · intro hnone
      simp only [extractAssignmentSpan, hi, hb, findClose_eq_none_of_no_close _ _ hnone]
    · intro k hk hmin
      simp only [extractAssignmentSpan, hi, hb, (findClose_eq_some_iff _ _ _).mpr ⟨hk, hmin⟩]

/-- C2 witness: on a concrete script the scanner returns exactly the braced span. -/
theorem c2_balanced_brace_scanner_witness :
    extractAssignmentSpan scriptW markerW =
      some ([obr] ++ "\"a\":\"b\"".toList ++ [cbr]) := by
  have h := (c2_balanced_brace_scanner scriptW markerW).2.2 7 25 (by decide) (by decide)
  have h2 := h.2 8 (by decide) (by decide)
  exact h2.trans (by decide)

theorem toList_append (a b : String) : (a ++ b).toList = a.toList ++ b.toList :=
  String.data_append a b

theorem parseUrl_http (x : String) : parseUrl ("http://" ++ x) = parseRest false x.toList := by
  unfold parseUrl
  rw [toList_append]
  rfl

theorem parseUrl_https (x : String) : parseUrl ("https://" ++ x) = parseRest true x.toList := by
  unfold parseUrl
  rw [toList_append]
  rfl

theorem takeWhile_eq_cons_head {α : Type} {p : α → Bool} {l : List α} {c : α} {t : List α}
    (h : l.takeWhile p = c :: t) : l.head? = some c ∧ p c = true := by
  cases l with
  | nil => simp [List.takeWhile] at h
  | cons a r =>
    rw [List.takeWhile_cons] at h
    by_cases hp : p a
    · rw [if_pos hp] at h
      injection h with h1 h2
      subst h1
      exact ⟨rfl, hp⟩
    · rw [if_neg hp] at h
      simp at h

theorem parseRest_shape {secure : Bool} {rest : List Char} {u : UrlParts}
    (h : parseRest secure rest = some u) :
    u.secure = secure ∧ u.host.toList ≠ [] ∧ (∀ c ∈ u.host.toList, hostPred c = true) ∧
    (∀ c ∈ u.path.toList, notQm c = true) ∧
    (u.path.toList = [] ∨ ∃ t, u.path.toList = '/' :: t) ∧
    rest = u.host.toList ++ u.path.toList ++ qpartOf u := by
  unfold parseRest at h
  by_cases hh : rest.takeWhile hostPred = []
  · rw [if_pos hh] at h
    exact absurd h (by simp)
  · rw [if_neg hh] at h
    injection h with h
    subst h
    refine ⟨rfl, hh, ?_, ?_, ?_, ?_⟩
    · intro c hc
      exact List.mem_takeWhile_imp hc
    · intro c hc
      exact List.mem_takeWhile_imp hc
    · cases hp : (rest.dropWhile hostPred).takeWhile notQm with
      | nil => exact Or.inl (by simp [hp])
      | cons c t =>
        right
        obtain ⟨hhead, hnq⟩ := takeWhile_eq_cons_head hp
        have hfail : hostPred c = false := by
          cases hd : rest.dropWhile hostPred with
          | nil => rw [hd] at hhead; simp at hhead
          | cons a r =>
            rw [hd] at hhead
            injection hhead with hhead
            subst hhead
            exact dropWhile_head_false _ _ _ _ hd
        have hc : c = '/' := by
          unfold hostPred at hfail
          unfold notQm at hnq
          simp at hfail hnq
          by_cases hcq : c = '/'
          · exact hcq
          · exact absurd (hfail hcq) hnq
        subst hc
        exact ⟨t, by simp [hp]⟩
    · show rest = _
      have h1 : rest = rest.takeWhile hostPred ++ rest.dropWhile hostPred :=
        (List.takeWhile_append_dropWhile hostPred rest).symm
      have h2 : rest.dropWhile hostPred =
          (rest.dropWhile hostPred).takeWhile notQm ++ (rest.dropWhile hostPred).dropWhile notQm :=
        (List.takeWhile_append_dropWhile notQm _).symm
      cases hq : (rest.dropWhile hostPred).dropWhile notQm with
      | nil =>
        simp only [qpartOf]
        rw [hq] at h2
        conv_lhs => rw [h1, h2]
        simp
      | cons c t =>
        have hc : c = '?' := by
          have := dropWhile_head_false notQm _ _ _ hq
          unfold notQm at this
          simpa using this
        subst hc
        simp only [qpartOf]
        rw [hq] at h2
        conv_lhs => rw [h1, h2]
        simp

theorem parseRest_of_shape (secure : Bool) (host path qpart : List Char)
    (hh : host ≠ []) (hall : ∀ c ∈ host, hostPred c = true)
    (hpath : ∀ c ∈ path, notQm c = true)
    (hshape : path = [] ∨ ∃ t, path = '/' :: t)
    (hq : qpart = [] ∨ ∃ t, qpart = '?' :: t) :
    parseRest secure (host ++ path ++ qpart) =
      some ⟨secure, String.mk host, String.mk path, queryOfQpart qpart⟩ := by
  have hpq : (path ++ qpart).takeWhile hostPred = [] := by
    rcases hshape with rfl | ⟨t, rfl⟩
    · rcases hq with rfl | ⟨t2, rfl⟩
      · rfl
      · simp [List.takeWhile_cons_of_neg (by decide : ¬ hostPred '?' = true)]
    · simp [List.takeWhile_cons_of_neg (by decide : ¬ hostPred '/' = true)]
  have htake : (host ++ path ++ qpart).takeWhile hostPred = host := by
    rw [List.append_assoc, List.takeWhile_append_of_pos hall, hpq, List.append_nil]
  have hdrop : (host ++ path ++ qpart).dropWhile hostPred = path ++ qpart := by
    rw [List.append_assoc, List.dropWhile_append_of_pos hall]
    rcases hshape with rfl | ⟨t, rfl⟩
    · rcases hq with rfl | ⟨t2, rfl⟩
      · rfl
      · simp [List.dropWhile_cons_of_neg (by decide : ¬ hostPred '?' = true)]
    · simp [List.dropWhile_cons_of_neg (by decide : ¬ hostPred '/' = true)]
  have hqtake : (path ++ qpart).takeWhile notQm = path := by
    rw [List.takeWhile_append_of_pos hpath]
    rcases hq with rfl | ⟨t2, rfl⟩
    · simp
    · rw [List.takeWhile_cons_of_neg (by decide), List.append_nil]
  have hqdrop : (path ++ qpart).dropWhile notQm = qpart := by
    rw [List.dropWhile_append_of_pos hpath]
    rcases hq with rfl | ⟨t2, rfl⟩
    · rfl
    · rw [List.dropWhile_cons_of_neg (by decide)]
  unfold parseRest
  rw [htake, if_neg hh, hdrop, hqtake, hqdrop]
  cases qpart <;> rfl

theorem mk_toList (s : String) : String.mk s.toList = s := rfl

theorem render_toList (u : UrlParts) :
    u.render.toList = (if u.secure then "https://" else "http://").toList ++
      (u.host.toList ++ (u.path.toList ++ qpartOf u)) := by
  unfold UrlParts.render
  cases hq : u.query with
  | none => simp [toList_append, qpartOf, hq]
  | some q =>
    simp only [toList_append, qpartOf, hq]
    simp [toList_append]

theorem queryOfQpart_qpartOf (u : UrlParts) : queryOfQpart (qpartOf u) = u.query := by
  cases hq : u.query with
  | none => simp [qpartOf, queryOfQpart, hq]
  | some q => simp [qpartOf, queryOfQpart, hq, mk_toList]

theorem qpartOf_shape (u : UrlParts) : qpartOf u = [] ∨ ∃ t, qpartOf u = '?' :: t := by
  cases hq : u.query with
  | none => exact Or.inl (by simp [qpartOf, hq])
  | some q => exact Or.inr ⟨q.toList, by simp [qpartOf, hq]⟩

theorem parseUrl_render_of_shape (u : UrlParts)
    (hh : u.host.toList ≠ []) (hall : ∀ c ∈ u.host.toList, hostPred c = true)
    (hpath : ∀ c ∈ u.path.toList, notQm c = true)
    (hshape : u.path.toList = [] ∨ ∃ w, u.path.toList = '/' :: w) :
    parseUrl u.render = some u := by
  obtain ⟨sec, host, path, query⟩ := u
  simp only at hh hall hpath hshape
  have hq := qpartOf_shape ⟨sec, host, path, query⟩
  have hrest := parseRest_of_shape sec host.toList path.toList
    (qpartOf ⟨sec, host, path, query⟩) hh hall hpath hshape hq
  rw [queryOfQpart_qpartOf] at hrest
  cases sec with
  | false =>
    have hrender : (UrlParts.render ⟨false, host, path, query⟩).toList =
        "http://".toList ++
          (host.toList ++ (path.toList ++ qpartOf ⟨false, host, path, query⟩)) := by
      rw [render_toList]
      rfl
    unfold parseUrl
    rw [hrender]
    show parseRest false (host.toList ++ (path.toList ++ qpartOf ⟨false, host, path, query⟩)) =
      some ⟨false, host, path, query⟩
    rw [← List.append_assoc]
    exact hrest
  | true =>
    have hrender : (UrlParts.render ⟨true, host, path, query⟩).toList =
        "https://".toList ++
          (host.toList ++ (path.toList ++ qpartOf ⟨true, host, path, query⟩)) := by
      rw [render_toList]
      rfl
    unfold parseUrl
    rw [hrender]
    show parseRest true (host.toList ++ (path.toList ++ qpartOf ⟨true, host, path, query⟩)) =
      some ⟨true, host, path, query⟩
    rw [← List.append_assoc]
    exact hrest

theorem parseUrl_shape {t : String} {u : UrlParts} (h : parseUrl t = some u) :
    u.host.toList ≠ [] ∧ (∀ c ∈ u.host.toList, hostPred c = true) ∧
    (∀ c ∈ u.path.toList, notQm c = true) ∧
    (u.path.toList = [] ∨ ∃ w, u.path.toList = '/' :: w) := by
  unfold parseUrl at h
  split at h
  · have hs := parseRest_shape h
    exact ⟨hs.2.1, hs.2.2.1, hs.2.2.2.1, hs.2.2.2.2.1⟩
  · have hs := parseRest_shape h
    exact ⟨hs.2.1, hs.2.2.1, hs.2.2.2.1, hs.2.2.2.2.1⟩
  · exact absurd h (by simp)

theorem parseUrl_some_toList {t : String} {u : UrlParts} (h : parseUrl t = some u) :
    (t.toList = "http://".toList ++ (u.host.toList ++ (u.path.toList ++ qpartOf u)) ∧
      u.secure = false) ∨
    (t.toList = "https://".toList ++ (u.host.toList ++ (u.path.toList ++ qpartOf u)) ∧
      u.secure = true) := by
  unfold parseUrl at h
  split at h
  · rename_i rest heq
    left
    have hs := parseRest_shape h
    refine ⟨?_, hs.1⟩
    rw [heq, hs.2.2.2.2.2, List.append_assoc]
    rfl
  · rename_i rest heq
    right
    have hs := parseRest_shape h
    refine ⟨?_, hs.1⟩
    rw [heq, hs.2.2.2.2.2, List.append_assoc]
    rfl
  · exact absurd h (by simp)

theorem jstrim_render_upgrade {t : String} {u : UrlParts}
    (htfix : jstrim t = t) (hp : parseUrl t = some u) :
    jstrim (UrlParts.render { u with secure := true }) =
      UrlParts.render { u with secure := true } := by
  have hshape := parseUrl_shape hp
  have hto := parseUrl_some_toList hp
  have ho : (UrlParts.render { u with secure := true }).toList =
      "https://".toList ++ (u.host.toList ++ (u.path.toList ++ qpartOf u)) := by
    rw [render_toList]
    rfl
  have key : trimL (UrlParts.render { u with secure := true }).toList =
      (UrlParts.render { u with secure := true }).toList := by
    apply trimL_fix_of_ends
    · intro c hc
      rw [ho] at hc
      have hhd : ("https://".toList ++
          (u.host.toList ++ (u.path.toList ++ qpartOf u))).head? = some 'h' := rfl
      rw [hhd] at hc
      injection hc with hc
      subst hc
      decide
    · intro c hc
      rw [ho] at hc
      have hne : u.host.toList ++ (u.path.toList ++ qpartOf u) ≠ [] := by
        intro hn
        rcases List.append_eq_nil.mp hn with ⟨h1, _⟩
        exact hshape.1 h1
      rw [List.getLast?_append_of_ne_nil _ hne] at hc
      have ht2 : t.toList.getLast? = some c := by
        rcases hto with ⟨hteq, _⟩ | ⟨hteq, _⟩
        · rw [hteq, List.getLast?_append_of_ne_nil _ hne]
          exact hc
        · rw [hteq, List.getLast?_append_of_ne_nil _ hne]
          exact hc
      have htfix2 : trimL t.toList = t.toList := congrArg String.toList htfix
      rw [← htfix2] at ht2
      exact trimL_getLast _ _ ht2
  calc jstrim (UrlParts.render { u with secure := true })
      = String.mk (trimL (UrlParts.render { u with secure := true }).toList) := rfl
    _ = String.mk (UrlParts.render { u with secure := true }).toList := by rw [key]
    _ = UrlParts.render { u with secure := true } := mk_toList _

theorem normalize_fix {s o : String} (h : normalizeSingleVideoUrl s = some o) :
    normalizeSingleVideoUrl o = some o := by
  unfold normalizeSingleVideoUrl at h
  by_cases he : jstrim s = ""
  · rw [if_pos he] at h
    exact absurd h (by simp)
  · rw [if_neg he] at h
    cases hp : parseUrl (jstrim s) with
    | none =>
      simp only [hp] at h
      by_cases hh : strStartsWith (jstrim s) "http" = true
      · rw [if_pos hh] at h
        injection h with h
        subst h
        unfold normalizeSingleVideoUrl
        rw [jstrim_idem, if_neg he]
        simp only [hp]
        rw [if_pos hh]
      · rw [if_neg hh] at h
        exact absurd h (by simp)
    | some u =>
      simp only [hp] at h
      by_cases hcdn : u.secure = false ∧ strEndsWith u.host "xhscdn.com" = true
      · rw [if_pos hcdn] at h
        injection h with h
        subst h
        have hfix := jstrim_render_upgrade (jstrim_idem s) hp
        have hshape := parseUrl_shape hp
        have hparse : parseUrl (UrlParts.render { u with secure := true }) =
            some { u with secure := true } :=
          parseUrl_render_of_shape _ hshape.1 hshape.2.1 hshape.2.2.1 hshape.2.2.2
        have hne : UrlParts.render { u with secure := true } ≠ "" := by
          intro hnil
          have h2 : (UrlParts.render { u with secure := true }).toList = [] := by
            rw [hnil]
            rfl
          rw [render_toList] at h2
          simp at h2
        unfold normalizeSingleVideoUrl
        rw [hfix, if_neg hne]
        simp only [hparse]
        rw [if_neg (by simp)]
      · rw [if_neg hcdn] at h
        injection h with h
        subst h
        unfold normalizeSingleVideoUrl
        rw [jstrim_idem, if_neg he]
        simp only [hp]
        rw [if_neg hcdn]

theorem dedupUrlsGo_mem {l seen : List String} {o : String} (h : o ∈ dedupUrlsGo l seen) :
    jstrim o = o ∧ o ≠ "" ∧ o ∉ seen := by
  induction l generalizing seen with
  | nil => simp [dedupUrlsGo] at h
  | cons u rest ih =>
    unfold dedupUrlsGo at h
    by_cases h1 : jstrim u = ""
    · rw [if_pos h1] at h
      exact ih h
    · rw [if_neg h1] at h
      by_cases h2 : jstrim u ∈ seen
      · rw [if_pos h2] at h
        exact ih h
      · rw [if_neg h2] at h
        rcases List.mem_cons.mp h with rfl | hmem
        · exact ⟨jstrim_idem u, h1, h2⟩
        · have hp := ih hmem
          exact ⟨hp.1, hp.2.1, fun hs => hp.2.2 (List.mem_cons_of_mem _ hs)⟩

theorem dedupUrlsGo_nodup (l seen : List String) : (dedupUrlsGo l seen).Nodup := by
  induction l generalizing seen with
  | nil => simp [dedupUrlsGo]
  | cons u rest ih =>
    unfold dedupUrlsGo
    by_cases h1 : jstrim u = ""
    · rw [if_pos h1]
      exact ih seen
    · rw [if_neg h1]
      by_cases h2 : jstrim u ∈ seen
      · rw [if_pos h2]
        exact ih seen
      · rw [if_neg h2]
        refine List.nodup_cons.mpr ⟨?_, ih _⟩
        intro hmem
        exact (dedupUrlsGo_mem hmem).2.2 (List.mem_cons_self _ _)

theorem dedupUrlsGo_fix {m : List String} :
    ∀ seen, (∀ o ∈ m, jstrim o = o ∧ o ≠ "") → m.Nodup → (∀ o ∈ m, o ∉ seen) →
    dedupUrlsGo m seen = m := by
  induction m with
  | nil => intro seen _ _ _; rfl
  | cons o rest ih =>
    intro seen hprops hnd hdis
    unfold dedupUrlsGo
    rw [(hprops o (List.mem_cons_self _ _)).1,
      if_neg (hprops o (List.mem_cons_self _ _)).2,
      if_neg (hdis o (List.mem_cons_self _ _))]
    congr 1
    apply ih
    · intro x hx
      exact hprops x (List.mem_cons_of_mem _ hx)
    · exact (List.nodup_cons.mp hnd).2
    · intro x hx hmem
      rcases List.mem_cons.mp hmem with rfl | hs
      · exact (List.nodup_cons.mp hnd).1 hx
      · exact hdis x (List.mem_cons_of_mem _ hx) hs

theorem dedupVideosGo_mem {l seen : List String} {o : String} (h : o ∈ dedupVideosGo l seen) :
    normalizeSingleVideoUrl o = some o ∧ getVideoCanonicalKey o ∉ seen := by
  induction l generalizing seen with
  | nil => simp [dedupVideosGo] at h
  | cons u rest ih =>
    unfold dedupVideosGo at h
    cases hn : normalizeSingleVideoUrl u with
    | none =>
      simp only [hn] at h
      exact ih h
    | some n =>
      simp only [hn] at h
      by_cases hk : getVideoCanonicalKey n ∈ seen
      · rw [if_pos hk] at h
        exact ih h
      · rw [if_neg hk] at h
        rcases List.mem_cons.mp h with rfl | hmem
        · exact ⟨normalize_fix hn, hk⟩
        · have hp := ih hmem
          exact ⟨hp.1, fun hs => hp.2 (List.mem_cons_of_mem _ hs)⟩

theorem dedupVideosGo_keys_nodup (l seen : List String) :
    ((dedupVideosGo l seen).map getVideoCanonicalKey).Nodup := by
  induction l generalizing seen with
  | nil => simp [dedupVideosGo]
  | cons u rest ih =>
    unfold dedupVideosGo
    cases hn : normalizeSingleVideoUrl u with
    | none =>
      simp only [hn]
      exact ih seen
    | some n =>
      simp only [hn]
      by_cases hk : getVideoCanonicalKey n ∈ seen
      · rw [if_pos hk]
        exact ih seen
      · rw [if_neg hk]
        rw [List.map_cons]
        refine List.nodup_cons.mpr ⟨?_, ih _⟩
        intro hmem
        rcases List.mem_map.mp hmem with ⟨x, hx, hkey⟩
        exact (dedupVideosGo_mem hx).2 (hkey ▸ List.mem_cons_self _ _)

theorem dedupVideosGo_fix {m : List String} :
    ∀ seen, (∀ o ∈ m, normalizeSingleVideoUrl o = some o) →
    (m.map getVideoCanonicalKey).Nodup →
    (∀ o ∈ m, getVideoCanonicalKey o ∉ seen) →
    dedupVideosGo m seen = m := by
  induction m with
  | nil => intro _ _ _ _; rfl
  | cons o rest ih =>
    intro seen hnorm hnd hdis
    unfold dedupVideosGo
    simp only [hnorm o (List.mem_cons_self _ _)]
    rw [if_neg (hdis o (List.mem_cons_self _ _))]
    congr 1
    apply ih
    · intro x hx
      exact hnorm x (List.mem_cons_of_mem _ hx)
    · rw [List.map_cons] at hnd
      exact (List.nodup_cons.mp hnd).2
    · intro x hx hmem
      rcases List.mem_cons.mp hmem with heq | hs
      · rw [List.map_cons] at hnd
        exact (List.nodup_cons.mp hnd).1 (heq ▸ List.mem_map_of_mem getVideoCanonicalKey hx)
      · exact hdis x (List.mem_cons_of_mem _ hx) hs

/-- C9: media deduplication is idempotent: applying `deduplicateUrls` to its
own output returns that output unchanged, and likewise for
`deduplicateVideoUrls` (which first runs each entry through
`normalizeSingleVideoUrl` and dedups by `getVideoCanonicalKey`). -/
theorem c9_dedup_idempotent :
    (∀ urls : List String, deduplicateUrls (deduplicateUrls urls) = deduplicateUrls urls)
    ∧ (∀ urls : List String,
        deduplicateVideoUrls (deduplicateVideoUrls urls) = deduplicateVideoUrls urls) := by
  constructor
  · intro urls
    unfold deduplicateUrls
    apply dedupUrlsGo_fix
    · intro o ho
      exact ⟨(dedupUrlsGo_mem ho).1, (dedupUrlsGo_mem ho).2.1⟩
    · exact dedupUrlsGo_nodup _ _
    · intro o _
      simp
  · intro urls
    unfold deduplicateVideoUrls
    apply dedupVideosGo_fix
    · intro o ho
      exact (dedupVideosGo_mem ho).1
    · exact dedupVideosGo_keys_nodup _ _
    · intro o _
      simp

theorem head?_mem {α : Type} {l : List α} {a : α} (h : l.head? = some a) : a ∈ l := by
  cases l with
  | nil => simp at h
  | cons x t =>
    injection h with h
    subst h
    exact List.mem_cons_self _ _

theorem getLast?_mem {α : Type} {l : List α} {a : α} (h : l.getLast? = some a) : a ∈ l := by
  rw [← rev_head?] at h
  have hm := head?_mem h
  rw [List.mem_reverse] at hm
  exact hm

theorem dedupFirstByKey_cons (key : String → String) (a : String) (l seen : List String) :
    dedupFirstByKey key (a :: l) seen =
      if key a ∈ seen then dedupFirstByKey key l seen
      else a :: dedupFirstByKey key l (key a :: seen) := rfl

theorem dedupVideosGo_eq_keyed (l : List String) :
    ∀ seen, dedupVideosGo l seen =
      dedupFirstByKey getVideoCanonicalKey (l.filterMap normalizeSingleVideoUrl) seen := by
  induction l with
  | nil => intro seen; rfl
  | cons u rest ih =>
    intro seen
    unfold dedupVideosGo
    cases hn : normalizeSingleVideoUrl u with
    | none =>
      simp only [hn]
      rw [List.filterMap_cons_none hn]
      exact ih seen
    | some n =>
      simp only [hn]
      rw [List.filterMap_cons_some hn, dedupFirstByKey_cons]
      by_cases hk : getVideoCanonicalKey n ∈ seen
      · rw [if_pos hk, if_pos hk]
        exact ih seen
      · rw [if_neg hk, if_neg hk, ih]

theorem jstrim_fix_of_no_ws {s : String} (h : ∀ c ∈ s.toList, isJsWs c = false) :
    jstrim s = s :=
  (congrArg String.mk (trimL_fix_of_ends s.toList
    (fun c hc => h c (head?_mem hc)) (fun c hc => h c (getLast?_mem hc)))).trans (mk_toList s)

theorem render_ne_empty (u : UrlParts) (_hh : u.host.toList ≠ []) : u.render ≠ "" := by
  intro hnil
  have h2 := congrArg String.toList hnil
  rw [render_toList] at h2
  cases hsec : u.secure with
  | false => rw [hsec] at h2; simp at h2
  | true => rw [hsec] at h2; simp at h2

theorem canonical_key_render {u : UrlParts} (hwf : wfUrl u)
    (hcdn : strEndsWith u.host "xhscdn.com" = true)
    (hstream : strIncludes u.path "/stream/" = true) :
    getVideoCanonicalKey u.render = u.path := by
  obtain ⟨hh, hall, hpath, hshape, hws⟩ := hwf
  have hshape2 : u.path.toList = [] ∨ ∃ w, u.path.toList = '/' :: w := by
    rcases hshape with h | h
    · exact Or.inl h
    · right
      cases hp : u.path.toList with
      | nil => rw [hp] at h; simp at h
      | cons a t =>
        rw [hp] at h
        injection h with h
        exact ⟨t, by rw [h]⟩
  have hfix : jstrim u.render = u.render := jstrim_fix_of_no_ws hws
  unfold getVideoCanonicalKey
  rw [hfix, if_neg (render_ne_empty u hh)]
  simp only [parseUrl_render_of_shape u hh hall hpath hshape2]
  rw [if_pos (by rw [hcdn, hstream]; rfl)]

/-- C4: video URL canonicalization.  The dedup pass keeps the first occurrence
per canonical key of the normalized URLs; the canonical key of a CDN URL with
a streaming path is the path alone, so mirror hosts and signed queries do not
affect it; a parsable plain-http CDN URL is upgraded to https; other parsable
URLs and unparsable http-prefixed strings are kept trimmed; everything else is
dropped; and the two concrete mirror-host URLs collapse to one entry. -/
theorem c4_video_canonicalization :
    (∀ urls : List String, deduplicateVideoUrls urls =
        dedupFirstByKey getVideoCanonicalKey (urls.filterMap normalizeSingleVideoUrl) [])
    ∧ (∀ u₁ u₂ : UrlParts, wfUrl u₁ → wfUrl u₂ →
        strEndsWith u₁.host "xhscdn.com" = true → strEndsWith u₂.host "xhscdn.com" = true →
        strIncludes u₁.path "/stream/" = true → u₁.path = u₂.path →
        getVideoCanonicalKey u₁.render = getVideoCanonicalKey u₂.render)
    ∧ (∀ s u, jstrim s ≠ "" → parseUrl (jstrim s) = some u →
        u.secure = false → strEndsWith u.host "xhscdn.com" = true →
        normalizeSingleVideoUrl s = some (UrlParts.render { u with secure := true }))
    ∧ (∀ s u, jstrim s ≠ "" → parseUrl (jstrim s) = some u →
        ¬(u.secure = false ∧ strEndsWith u.host "xhscdn.com" = true) →
        normalizeSingleVideoUrl s = some (jstrim s))
    ∧ (∀ s, jstrim s ≠ "" → parseUrl (jstrim s) = none →
        strStartsWith (jstrim s) "http" = true → normalizeSingleVideoUrl s = some (jstrim s))
    ∧ (∀ s, jstrim s = "" ∨
        (parseUrl (jstrim s) = none ∧ strStartsWith (jstrim s) "http" = false) →
        normalizeSingleVideoUrl s = none)
    ∧ deduplicateVideoUrls [mirrorU1.render, mirrorU2.render] = [mirrorU1.render] := by
  refine ⟨?_, ?_, ?_, ?_, ?_, ?_, ?_⟩
  · intro urls
    exact dedupVideosGo_eq_keyed urls []
  · intro u₁ u₂ hwf1 hwf2 hcdn1 hcdn2 hstr1 hpeq
    rw [canonical_key_render hwf1 hcdn1 hstr1, canonical_key_render hwf2 hcdn2 (hpeq ▸ hstr1)]
    exact hpeq
  · intro s u hne hp hsec hcdn
    unfold normalizeSingleVideoUrl
    rw [if_neg hne]
    simp only [hp]
    rw [if_pos ⟨hsec, hcdn⟩]
  · intro s u hne hp hcond
    unfold normalizeSingleVideoUrl
    rw [if_neg hne]
    simp only [hp]
    rw [if_neg hcond]
  · intro s hne hp hhttp
    unfold normalizeSingleVideoUrl
    rw [if_neg hne]
    simp only [hp]
    rw [if_pos hhttp]
  · intro s hcase
    unfold normalizeSingleVideoUrl
    rcases hcase with he | ⟨hp, hhttp⟩
    · rw [if_pos he]
    · by_cases he : jstrim s = ""
      · rw [if_pos he]
      · rw [if_neg he]
        simp only [hp]
        rw [if_neg (by simp [hhttp])]
  · decide

/-- C4 witness: the two concrete mirror URLs have equal canonical keys. -/
theorem c4_video_canonicalization_witness :
    getVideoCanonicalKey mirrorU1.render = getVideoCanonicalKey mirrorU2.render :=
  c4_video_canonicalization.2.1 mirrorU1 mirrorU2 (by decide) (by decide) (by decide)
    (by decide) (by decide) (by decide)

/-! ## C1 and C3: merge precedence and the note-record resolver -/

theorem getStrField_eq_some {j : Json} {k s : String} (h : j.getStrField k = some s) :
    j.getField k = some (.str s) := by
  unfold Json.getStrField at h
  split at h
  · rename_i heq
    injection h with h
    subst h
    exact heq
  · exact absurd h (by simp)

theorem firstString_cons_str (s : String) (rest : List (Option Json)) :
    firstString (some (.str s) :: rest) =
      if jstrim s ≠ "" then jstrim s else firstString rest := rfl

theorem applyJsonLd_title_content (note : BasicNote) (blocks : List Json)
    (ld : Json) (h b : String)
    (hld : extractJsonLdData blocks = some ld)
    (hfh : ld.getField "headline" = some (.str h)) (hhne : jstrim h ≠ "")
    (hfb : ld.getField "articleBody" = some (.str b)) (hbne : jstrim b ≠ "") :
    (applyJsonLd note blocks).title = jstrim h ∧
      (applyJsonLd note blocks).content = jstrim b := by
  unfold applyJsonLd
  simp only [hld, hfh, hfb, firstString_cons_str, if_pos hhne, if_pos hbne]
  constructor
  · split
    · split
      · rfl
      · rfl
    · split
      · rfl
      · rfl
  · split
    · split
      · rfl
      · rfl
    · split
      · rfl
      · rfl

theorem applyInlineState_of_no_detail (note : BasicNote) (state : Option Json)
    (noteId : Option String)
    (hnostate : ∀ st, state = some st → findNoteDetail st noteId = none) :
    applyInlineState note state noteId = note := by
  unfold applyInlineState
  cases hs : state with
  | none => rfl
  | some st =>
    show (match findNoteDetail st noteId with
      | some detail => mergeNoteDetail note detail
      | none => note) = note
    simp only [hnostate st hs]

theorem applyMetaFallbacks_preserve (note : BasicNote)
    (mt md mc : String) (ht : jstrim note.title ≠ "") (hc : jstrim note.content ≠ "") :
    (applyMetaFallbacks note mt md mc).title = note.title ∧
      (applyMetaFallbacks note mt md mc).content = note.content := by
  unfold applyMetaFallbacks
  simp only [if_neg ht, if_neg hc]
  constructor
  · split
    · rfl
    · rfl
  · split
    · rfl
    · rfl

theorem finalizeNote_title_content (note : BasicNote) (mc : String)
    (ht : jstrim note.title ≠ "") :
    (finalizeNote note mc).title = jstrim note.title ∧
      (finalizeNote note mc).content = jstrim note.content := by
  constructor
  · show (if jstrim note.title ≠ "" then jstrim note.title else "未能获取标题") =
      jstrim note.title
    rw [if_pos ht]
  · rfl

/-- C1 counterexample: the document contains a JSON-LD Article-family block
with headline "LD Title" and body "LD Body", yet the returned title and body
are the inline-state values — the inline-state layer overwrites the JSON-LD
fields instead of only filling empty ones. -/
theorem c1_merge_fallback_counterexample :
    extractJsonLdData docC1.jsonLdBlocks = some ldBlockC1 ∧
    ldBlockC1.getStrField "headline" = some "LD Title" ∧
    ldBlockC1.getStrField "articleBody" = some "LD Body" ∧
    (parseBasicNote docC1).title = "State Title" ∧
    (parseBasicNote docC1).content = "State Body" ∧
    "State Title" ≠ jstrim "LD Title" ∧ "State Body" ≠ jstrim "LD Body" :=
  ⟨rfl, rfl, rfl, rfl, rfl, by decide, by decide⟩

/-- C1 (amended): the meta-tag layer fills only still-empty fields, but the
inline-state layer can overwrite a JSON-LD title/body with candidate values
of the note detail it finds (including values reached through nested keys).
The guarantee that holds is: whenever the inline-state layer contributes no
note detail at all — no inline state was found, or `findNoteDetail` matched
no node — the returned title/body equal the JSON-LD headline/articleBody up
to leading/trailing whitespace. -/
theorem c1_merge_fallback_amended (d : DocModel) (ld : Json) (h b : String)
    (hld : extractJsonLdData d.jsonLdBlocks = some ld)
    (hh : ld.getStrField "headline" = some h) (hhne : jstrim h ≠ "")
    (hb : ld.getStrField "articleBody" = some b) (hbne : jstrim b ≠ "")
    (hnostate : ∀ st, d.initialState = some st → findNoteDetail st d.noteId = none) :
    (parseBasicNote d).title = jstrim h ∧ (parseBasicNote d).content = jstrim b := by
  have hjl := applyJsonLd_title_content ⟨"", "", [], none, [], d.url⟩ d.jsonLdBlocks ld h b
    hld (getStrField_eq_some hh) hhne (getStrField_eq_some hb) hbne
  unfold parseBasicNote
  rw [applyInlineState_of_no_detail _ _ _ hnostate]
  have hmt : jstrim (applyJsonLd ⟨"", "", [], none, [], d.url⟩ d.jsonLdBlocks).title ≠ "" := by
    rw [hjl.1, jstrim_idem]
    exact hhne
  have hmc : jstrim (applyJsonLd ⟨"", "", [], none, [], d.url⟩ d.jsonLdBlocks).content ≠ "" := by
    rw [hjl.2, jstrim_idem]
    exact hbne
  have hmeta := applyMetaFallbacks_preserve _ d.metaTitle d.metaDescription d.metaCover hmt hmc
  have hfin := finalizeNote_title_content
    (applyMetaFallbacks (applyJsonLd ⟨"", "", [], none, [], d.url⟩ d.jsonLdBlocks)
      d.metaTitle d.metaDescription d.metaCover) d.metaCover
    (by rw [hmeta.1]; exact hmt)
  rw [hfin.1, hfin.2, hmeta.1, hmeta.2, hjl.1, hjl.2, jstrim_idem, jstrim_idem]
  exact ⟨rfl, rfl⟩

/-- C1 witness: a document with the JSON-LD block and no inline state gets the
JSON-LD headline and article body as title and content. -/
theorem c1_merge_fallback_amended_witness :
    (parseBasicNote ⟨"", "", "", [ldBlockC1], none, none, "u"⟩).title = jstrim "LD Title" ∧
    (parseBasicNote ⟨"", "", "", [ldBlockC1], none, none, "u"⟩).content = jstrim "LD Body" :=
  c1_merge_fallback_amended ⟨"", "", "", [ldBlockC1], none, none, "u"⟩ ldBlockC1
    "LD Title" "LD Body" rfl rfl (by decide) rfl (by decide)
    (fun st hst => Option.noConfusion hst)

theorem findNoteDetailF_sound (noteId : Option String) :
    ∀ fuel queue r, findNoteDetailF noteId fuel queue = some r →
      isNoteDetail r noteId = true := by
  intro fuel
  induction fuel with
  | zero =>
    intro queue r h
    simp [findNoteDetailF] at h
  | succ n ih =>
    intro queue r h
    cases queue with
    | nil => simp [findNoteDetailF] at h
    | cons j rest =>
      unfold findNoteDetailF at h
      by_cases hj : isNoteDetail j noteId = true
      · rw [if_pos hj] at h
        injection h with h
        subst h
        exact hj
      · rw [if_neg hj] at h
        exact ih _ _ h

theorem findNoteDetailF_eq_find (noteId : Option String) :
    ∀ fuel queue, findNoteDetailF noteId fuel queue =
      (bfsOrder fuel queue).find? (fun j => isNoteDetail j noteId) := by
  intro fuel
  induction fuel with
  | zero =>
    intro queue
    cases queue <;> rfl
  | succ n ih =>
    intro queue
    cases queue with
    | nil => rfl
    | cons j rest =>
      show (if isNoteDetail j noteId then some j
            else findNoteDetailF noteId n (rest ++ objChildren j)) =
        (j :: bfsOrder n (rest ++ objChildren j)).find? (fun x => isNoteDetail x noteId)
      by_cases hj : isNoteDetail j noteId = true
      · rw [if_pos hj, List.find?_cons]
        simp only [hj]
      · rw [if_neg hj, List.find?_cons, ih]
        simp only [Bool.not_eq_true] at hj
        simp only [hj]

/-- C3 counterexample: although `nodeB` in the graph carries the target
identifier, the resolver returns `nodeA`, which matches only the structural
heuristic — the heuristic is applied in the same BFS pass as the identifier
test, not only as a fallback after the whole graph fails to id-match. -/
theorem c3_note_resolver_counterexample :
    findNoteDetail stateC3 (some "target") = some nodeA ∧
    carriesId nodeA "target" = false ∧
    stateC3.getField "b" = some nodeB ∧
    carriesId nodeB "target" = true :=
  ⟨rfl, rfl, rfl, rfl⟩

/-- C3 (amended): the resolver returns exactly the first node in BFS order
accepted by `isNoteDetail` — its result is `List.find?` of the combined
identifier-or-heuristic test over the BFS visit order — and in particular
every returned node passes that combined test; hence a structurally
note-like node can shadow a later identifier-matching node. -/
theorem c3_note_resolver_amended :
    ∀ (state : Json) (noteId : Option String),
      findNoteDetail state noteId =
        (bfsVisitOrder state).find? (fun j => isNoteDetail j noteId) ∧
      ∀ r, findNoteDetail state noteId = some r → isNoteDetail r noteId = true := by
  intro state noteId
  constructor
  · unfold findNoteDetail bfsVisitOrder
    by_cases ho : isObjLike state = true
    · rw [if_pos ho, if_pos ho]
      exact findNoteDetailF_eq_find noteId _ _
    · rw [if_neg ho, if_neg ho]
      rfl
  · intro r h
    unfold findNoteDetail at h
    by_cases ho : isObjLike state = true
    · rw [if_pos ho] at h
      exact findNoteDetailF_sound noteId _ _ _ h
    · rw [if_neg ho] at h
      exact absurd h (by simp)

/-- C3 witness: on the concrete state the resolver's output is the first node
of the BFS visit order accepted by the combined test, and that node passes
the test. -/
theorem c3_note_resolver_amended_witness :
    findNoteDetail stateC3 (some "target") =
      (bfsVisitOrder stateC3).find? (fun j => isNoteDetail j (some "target")) ∧
    isNoteDetail nodeA (some "target") = true :=
  ⟨(c3_note_resolver_amended stateC3 (some "target")).1,
   (c3_note_resolver_amended stateC3 (some "target")).2 nodeA rfl⟩

theorem mapGet_mapSet_self {β : Type} (m : List (String × β)) (k : String) (v : β) :
    mapGet (mapSet m k v) k = some v := by
  induction m with
  | nil => simp [mapSet, mapGet]
  | cons p rest ih =>
    obtain ⟨k2, w⟩ := p
    unfold mapSet
    by_cases h : k2 = k
    · rw [if_pos h]
      simp [mapGet]
    · rw [if_neg h]
      unfold mapGet
      rw [if_neg h]
      exact ih

theorem mapGet_mapSet_ne {β : Type} (m : List (String × β)) (k k2 : String) (v : β)
    (h : k2 ≠ k) : mapGet (mapSet m k v) k2 = mapGet m k2 := by
  induction m with
  | nil =>
    simp [mapSet, mapGet]
    intro he
    exact absurd he.symm h
  | cons p rest ih =>
    obtain ⟨k3, w⟩ := p
    unfold mapSet
    by_cases h3 : k3 = k
    · rw [if_pos h3]
      unfold mapGet
      rw [if_neg (fun he => h he.symm), if_neg (fun he => h (h3 ▸ he).symm)]
    · rw [if_neg h3]
      unfold mapGet
      by_cases h32 : k3 = k2
      · rw [if_pos h32, if_pos h32]
      · rw [if_neg h32, if_neg h32]
        exact ih

theorem mapGet_mapDelete_self {β : Type} (m : List (String × β)) (k : String) :
    mapGet (mapDelete m k) k = none := by
  induction m with
  | nil => rfl
  | cons p rest ih =>
    obtain ⟨k2, w⟩ := p
    unfold mapDelete at ih ⊢
    by_cases h : k2 = k
    · rw [List.filter_cons_of_neg (by simp [h])]
      exact ih
    · rw [List.filter_cons_of_pos (by simp [h])]
      unfold mapGet
      rw [if_neg h]
      exact ih

theorem mapGet_cons {β : Type} (k2 : String) (w : β) (rest : List (String × β))
    (key : String) :
    mapGet ((k2, w) :: rest) key = if k2 = key then some w else mapGet rest key := rfl

theorem mapGet_mapDelete_ne {β : Type} (m : List (String × β)) (k k2 : String)
    (h : k2 ≠ k) : mapGet (mapDelete m k) k2 = mapGet m k2 := by
  induction m with
  | nil => rfl
  | cons p rest ih =>
    obtain ⟨k3, w⟩ := p
    unfold mapDelete at ih ⊢
    by_cases h3 : k3 = k
    · rw [List.filter_cons_of_neg (by simp [h3])]
      rw [ih, mapGet_cons, if_neg (by rw [h3]; exact fun he => h he.symm)]
    · rw [List.filter_cons_of_pos (by simp [h3])]
      rw [mapGet_cons, mapGet_cons, ih]

theorem updateAccessOrder_getLast (order : List String) (url : String) :
    (updateAccessOrder order url).getLast? = some url := by
  unfold updateAccessOrder
  rw [List.getLast?_append_of_ne_nil _ (by simp)]
  rfl

/-- C5: within the TTL window a `get` after a `set` returns the stored record
and moves the key to the most-recent end of the access order; at or past the
TTL the `get` misses and deletes the entry; and a `set` of a new key at
capacity evicts exactly the least-recently-used key (the access-order head)
and makes the inserted key most recent while leaving every other entry
untouched. -/
theorem c5_cache_behavior {α : Type} :
    (∀ (st : CacheState α) (url : String) (rec : α) (now1 now2 ttl : Nat),
      now1 ≤ now2 → now2 - now1 < ttl →
      (getCachedContent (setCachedContent st url rec now1) url now2 ttl).1 = some rec ∧
      (getCachedContent (setCachedContent st url rec now1) url now2
        ttl).2.accessOrder.getLast? = some url)
    ∧ (∀ (st : CacheState α) (url : String) (rec : α) (now1 now2 ttl : Nat),
      now2 - now1 ≥ ttl →
      (getCachedContent (setCachedContent st url rec now1) url now2 ttl).1 = none ∧
      mapGet (getCachedContent (setCachedContent st url rec now1) url now2 ttl).2.cache
        url = none)
    ∧ (∀ (st : CacheState α) (url : String) (rec : α) (now : Nat) (k0 : String)
        (rest : List String),
      st.accessOrder = k0 :: rest → k0 ≠ "" → url ∉ st.accessOrder →
      st.cache.length ≥ MAX_CACHE_SIZE → mapGet st.cache url = none →
      mapGet (setCachedContent st url rec now).cache k0 = none ∧
      mapGet (setCachedContent st url rec now).cache url = some ⟨rec, now, 1⟩ ∧
      (∀ k, k ≠ k0 → k ≠ url →
        mapGet (setCachedContent st url rec now).cache k = mapGet st.cache k) ∧
      (setCachedContent st url rec now).accessOrder = rest ++ [url]) := by
  refine ⟨?_, ?_, ?_⟩
  · intro st url rec now1 now2 ttl h12 hlt
    unfold getCachedContent
    have hget : mapGet (setCachedContent st url rec now1).cache url =
        some ⟨rec, now1, 1⟩ := mapGet_mapSet_self _ _ _
    simp only [hget]
    rw [if_neg (by
      show ¬(now2 - now1 ≥ ttl)
      omega)]
    exact ⟨rfl, updateAccessOrder_getLast _ _⟩
  · intro st url rec now1 now2 ttl hge
    unfold getCachedContent
    have hget : mapGet (setCachedContent st url rec now1).cache url =
        some ⟨rec, now1, 1⟩ := mapGet_mapSet_self _ _ _
    simp only [hget]
    rw [if_pos (by
      show now2 - now1 ≥ ttl
      omega)]
    exact ⟨rfl, mapGet_mapDelete_self _ _⟩
  · intro st url rec now k0 rest horder hk0 hnomem hlen hmiss
    have hk0url : url ≠ k0 := by
      intro he
      rw [horder] at hnomem
      exact hnomem (he ▸ List.mem_cons_self _ _)
    have hurlrest : url ∉ rest := by
      intro hmem
      rw [horder] at hnomem
      exact hnomem (List.mem_cons_of_mem _ hmem)
    unfold setCachedContent
    rw [if_pos ⟨hlen, by rw [hmiss]; rfl⟩, horder]
    simp only [if_neg hk0]
    refine ⟨?_, mapGet_mapSet_self _ _ _, ?_, ?_⟩
    · rw [mapGet_mapSet_ne _ _ _ _ (fun he => hk0url he.symm)]
      exact mapGet_mapDelete_self _ _
    · intro k hkk0 hkurl
      rw [mapGet_mapSet_ne _ _ _ _ hkurl]
      exact mapGet_mapDelete_ne _ _ _ hkk0
    · show updateAccessOrder rest url = rest ++ [url]
      unfold updateAccessOrder removeFromAccessOrder
      rw [List.erase_of_not_mem hurlrest]

set_option maxRecDepth 4000 in
/-- C5 witness: the three cache properties at concrete states — a hit within
the TTL window, a miss at the TTL bound, and eviction of exactly the LRU key
from a full 200-entry cache. -/
theorem c5_cache_behavior_witness :
    (getCachedContent (setCachedContent (⟨[], []⟩ : CacheState Nat) "u" 7 0) "u" 10 100).1
      = some 7 ∧
    (getCachedContent (setCachedContent (⟨[], []⟩ : CacheState Nat) "u" 7 0) "u" 60 50).1
      = none ∧
    mapGet (setCachedContent bigCache "new" 7 5).cache "k0" = none ∧
    mapGet (setCachedContent bigCache "new" 7 5).cache "new" = some ⟨7, 5, 1⟩ ∧
    (setCachedContent bigCache "new" 7 5).accessOrder = cacheKeys200.tail ++ ["new"] := by
  have h3 := (@c5_cache_behavior Nat).2.2 bigCache "new" 7 5 "k0" cacheKeys200.tail
    (by decide) (by decide) (by decide) (by decide) (by decide)
  refine ⟨?_, ?_, h3.1, h3.2.1, h3.2.2.2⟩
  · exact ((@c5_cache_behavior Nat).1 ⟨[], []⟩ "u" 7 0 10 100 (by decide) (by decide)).1
  · exact ((@c5_cache_behavior Nat).2.1 ⟨[], []⟩ "u" 7 0 60 50 (by decide)).1

theorem listStartsWith_append_self (p x : List Char) :
    listStartsWith p (p ++ x) = true := by
  induction p with
  | nil => rfl
  | cons c rest ih =>
    show (c == c && listStartsWith rest (rest ++ x)) = true
    rw [ih]
    simp

theorem parseUrl_none_of_not_http (url : String)
    (h1 : strStartsWith url "http://" = false)
    (h2 : strStartsWith url "https://" = false) : parseUrl url = none := by
  unfold parseUrl
  split
  · rename_i rest heq
    have : strStartsWith url "http://" = true := by
      unfold strStartsWith
      rw [heq]
      rfl
    rw [this] at h1
    exact absurd h1 (by simp)
  · rename_i rest heq
    have : strStartsWith url "https://" = true := by
      unfold strStartsWith
      rw [heq]
      rfl
    rw [this] at h2
    exact absurd h2 (by simp)
  · rfl

/-- C8: `validateUrl` rejects before any fetch: unparsable URLs, URLs whose
scheme is not http/https, URLs with a private or loopback host, and URLs
matching no allowed domain are all rejected; in particular
`http://127.0.0.1/admin` is rejected, so the `prepareLink` path never
dispatches a fetch for it. -/
theorem c8_validate_url_rejects :
    (∀ url allowed, parseUrl url = none → validateUrl url allowed = false)
    ∧ (∀ url allowed, strStartsWith url "http://" = false →
        strStartsWith url "https://" = false → validateUrl url allowed = false)
    ∧ (∀ url allowed u, parseUrl url = some u →
        isPrivateIP (toLowerStr u.host) = true ∨ isLocalhost (toLowerStr u.host) = true →
        validateUrl url allowed = false)
    ∧ (∀ url allowed u, parseUrl url = some u →
        (∀ d ∈ allowed, domainMatch (toLowerStr u.host) d = false) →
        validateUrl url allowed = false)
    ∧ (validateUrl "http://127.0.0.1/admin"
        ["xiaohongshu.com", "www.xiaohongshu.com", "xhslink.com"] = false ∧
       prepareLinkDispatch ["xiaohongshu.com", "www.xiaohongshu.com", "xhslink.com"]
        "http://127.0.0.1/admin" = none) := by
  refine ⟨?_, ?_, ?_, ?_, ?_, ?_⟩
  · intro url allowed h
    unfold validateUrl
    simp only [h]
  · intro url allowed h1 h2
    unfold validateUrl
    simp only [parseUrl_none_of_not_http url h1 h2]
  · intro url allowed u hp hpriv
    unfold validateUrl
    simp only [hp]
    rw [if_pos]
    rcases hpriv with h | h
    · rw [h]
      simp
    · rw [h]
      simp
  · intro url allowed u hp hnone
    unfold validateUrl
    simp only [hp]
    by_cases hpriv : (isPrivateIP (toLowerStr u.host) || isLocalhost (toLowerStr u.host)) = true
    · rw [if_pos hpriv]
    · rw [if_neg hpriv]
      exact List.any_eq_false.mpr fun x hx => by rw [hnone x hx]; simp
  · decide
  · decide

/-- C10: the implicit input gate of `parseXHSUrl`: an input whose trimmed form
is longer than 2048 characters, or which contains any of the dangerous
characters, is rejected before any pattern matching. -/
theorem c10_parse_url_guard (url : String)
    (h : (jstrim url).length > 2048 ∨ ∃ c ∈ url.toList, dangerousChars.contains c = true) :
    parseXHSUrl url = none := by
  unfold parseXHSUrl
  rcases h with hlen | ⟨c, hc, hd⟩
  · rw [if_pos hlen]
  · by_cases hlen : (jstrim url).length > 2048
    · rw [if_pos hlen]
    · rw [if_neg hlen, if_pos ?hany]
      case hany =>
        have hsplit : c = '<' ∨ c = '>' ∨ c = dq ∨ c = sqc ∨ c = bs := by
          simpa [dangerousChars] using hd
        have hws : isJsWs c = false := by
          rcases hsplit with rfl | rfl | rfl | rfl | rfl <;> decide
        rw [List.any_eq_true]
        exact ⟨c, mem_trimL_of_not_ws _ _ hws hc, hd⟩

/-- C6 counterexample: two distinct raw candidates in the same batch
normalize to the same URL and the batch resolver dispatches that normalized
URL to the cache-backed extraction path twice (it deduplicates only the
delivery callback). -/
theorem c6_batch_resolver_counterexample :
    rawUrl1 ≠ rawUrl2 ∧
    (parseLinksWithLimit xhsAllowed (fun _ => true) [rawUrl1, rawUrl2]).1 =
      ["https://www.xiaohongshu.com/explore/abc123",
       "https://www.xiaohongshu.com/explore/abc123"] ∧
    (parseLinksWithLimit xhsAllowed (fun _ => true) [rawUrl1, rawUrl2]).2 =
      ["https://www.xiaohongshu.com/explore/abc123"] :=
  ⟨by decide, rfl, rfl⟩

theorem runBatch_inv (allowed : List String) (outcome : String → Bool) :
    ∀ (batch seen : List String),
      (runBatch allowed outcome batch seen).2.1.Nodup ∧
      (∀ x ∈ (runBatch allowed outcome batch seen).2.1, x ∉ seen) ∧
      (∀ x ∈ seen, x ∈ (runBatch allowed outcome batch seen).2.2) ∧
      (∀ x ∈ (runBatch allowed outcome batch seen).2.1,
        x ∈ (runBatch allowed outcome batch seen).2.2) ∧
      (∀ x ∈ (runBatch allowed outcome batch seen).2.1,
        x ∈ (runBatch allowed outcome batch seen).1) := by
  intro batch
  induction batch with
  | nil =>
    intro seen
    refine ⟨List.nodup_nil, ?_, ?_, ?_, ?_⟩ <;> simp [runBatch]
  | cons u rest ih =>
    intro seen
    unfold runBatch
    cases hd : prepareLinkDispatch allowed u with
    | none =>
      simp only [hd]
      exact ih seen
    | some n =>
      simp only [hd]
      by_cases hc : outcome n = true ∧ n ∉ seen
      · rw [if_pos hc]
        obtain ⟨ih1, ih2, ih3, ih4, ih5⟩ := ih (n :: seen)
        refine ⟨?_, ?_, ?_, ?_, ?_⟩
        · refine List.nodup_cons.mpr ⟨?_, ih1⟩
          intro hmem
          exact ih2 n hmem (List.mem_cons_self _ _)
        · intro x hx
          rcases List.mem_cons.mp hx with rfl | hx2
          · exact hc.2
          · intro hs
            exact ih2 x hx2 (List.mem_cons_of_mem _ hs)
        · intro x hx
          exact ih3 x (List.mem_cons_of_mem _ hx)
        · intro x hx
          rcases List.mem_cons.mp hx with rfl | hx2
          · exact ih3 x (List.mem_cons_self _ _)
          · exact ih4 x hx2
        · intro x hx
          rcases List.mem_cons.mp hx with rfl | hx2
          · exact List.mem_cons_self _ _
          · exact List.mem_cons_of_mem _ (ih5 x hx2)
      · rw [if_neg hc]
        obtain ⟨ih1, ih2, ih3, ih4, ih5⟩ := ih seen
        refine ⟨ih1, ih2, ih3, ih4, ?_⟩
        intro x hx
        exact List.mem_cons_of_mem _ (ih5 x hx)

theorem runBatches_inv (allowed : List String) (outcome : String → Bool) :
    ∀ (batches : List (List String)) (seen : List String),
      (runBatches allowed outcome batches seen).2.Nodup ∧
      (∀ x ∈ (runBatches allowed outcome batches seen).2, x ∉ seen) ∧
      (∀ x ∈ (runBatches allowed outcome batches seen).2,
        x ∈ (runBatches allowed outcome batches seen).1) := by
  intro batches
  induction batches with
  | nil =>
    intro seen
    refine ⟨List.nodup_nil, ?_, ?_⟩ <;> simp [runBatches]
  | cons batch more ih =>
    intro seen
    obtain ⟨b1, b2, b3, b4, b5⟩ := runBatch_inv allowed outcome batch seen
    obtain ⟨m1, m2, m3⟩ := ih (runBatch allowed outcome batch seen).2.2
    unfold runBatches
    refine ⟨?_, ?_, ?_⟩
    · rw [List.nodup_append]
      refine ⟨b1, m1, ?_⟩
      intro x hx hx2
      exact m2 x hx2 (b4 x hx)
    · intro x hx
      rcases List.mem_append.mp hx with hx2 | hx2
      · exact b2 x hx2
      · intro hs
        exact m2 x hx2 (b3 x hs)
    · intro x hx
      rcases List.mem_append.mp hx with hx2 | hx2
      · exact List.mem_append_left _ (b5 x hx2)
      · exact List.mem_append_right _ (m3 x hx2)

/-- C6 (amended): the batch resolver never DELIVERS the same normalized URL
twice within one call — the `results` set gates the callback across batches —
and everything delivered was dispatched; but the dispatch to the cache-backed
extraction path itself is deduplicated only per raw candidate string, so two
distinct raw candidates with the same normalized URL are both dispatched.
Batches of three are processed strictly sequentially with the set threaded
through. -/
theorem c6_batch_resolver_amended :
    ∀ (allowed : List String) (outcome : String → Bool) (urls : List String),
      (parseLinksWithLimit allowed outcome urls).2.Nodup ∧
      (∀ x ∈ (parseLinksWithLimit allowed outcome urls).2,
        x ∈ (parseLinksWithLimit allowed outcome urls).1) := by
  intro allowed outcome urls
  obtain ⟨h1, _, h3⟩ := runBatches_inv allowed outcome (chunks3 urls) []
  exact ⟨h1, h3⟩

/-- C7 counterexample: with an empty cache and a failing fetch, the first
`getContent` variant raises (a sanitized generic error) instead of returning
null; the second variant returns null. -/
theorem c7_get_content_counterexample :
    getContentV1 true false (none : Option Nat) (Except.error ()) =
      Except.error "内容获取失败" ∧
    getContentV1 true false (none : Option Nat) (Except.error ()) ≠ Except.ok none ∧
    getContentV2 true false (none : Option Nat) (Except.error ()) = Except.ok none :=
  ⟨rfl, fun h => Except.noConfusion h, rfl⟩

/-- C7 (amended): the second `getContent` variant never raises — any failure
of the fetch/parse attempt yields null ("content unavailable"); the first
variant instead converts such a failure into a thrown error carrying only the
fixed sanitized message `内容获取失败`, with no internal details. -/
theorem c7_get_content_amended {α : Type} :
    (∀ (ec fr : Bool) (cached : Option α) (attempt : Except Unit (Option α)),
      ∃ r, getContentV2 ec fr cached attempt = .ok r)
    ∧ (∀ (ec fr : Bool) (cached : Option α) (e : Unit),
      (!fr && ec && cached.isSome) = false →
      getContentV2 ec fr cached (.error e) = .ok none)
    ∧ (∀ (ec fr : Bool) (cached : Option α) (e : Unit),
      (!fr && ec && cached.isSome) = false →
      getContentV1 ec fr cached (.error e) = .error "内容获取失败") := by
  refine ⟨?_, ?_, ?_⟩
  · intro ec fr cached attempt
    unfold getContentV2
    by_cases hc : (!fr && ec && cached.isSome) = true
    · rw [if_pos hc]
      exact ⟨cached, rfl⟩
    · rw [if_neg hc]
      cases attempt with
      | ok c => exact ⟨c, rfl⟩
      | error e => exact ⟨none, rfl⟩
  · intro ec fr cached e hc
    unfold getContentV2
    rw [if_neg (by rw [hc]; simp)]
  · intro ec fr cached e hc
    unfold getContentV1
    rw [if_neg (by rw [hc]; simp)]

/-- C7 witness: the amended behavior at concrete inputs — the second variant
returns null on a failing attempt, the first throws the fixed message. -/
theorem c7_get_content_amended_witness :
    getContentV2 true true (some 3) (Except.error ()) = Except.ok none ∧
    getContentV1 false false (none : Option Nat) (Except.error ()) =
      Except.error "内容获取失败" := by
  constructor
  · exact c7_get_content_amended.2.1 true true (some 3) () (by decide)
  · exact c7_get_content_amended.2.2 false false (none : Option Nat) () (by decide)

/-- C8 witness: `http://10.0.0.5/x` parses with host `10.0.0.5`, that host is
a private IP, and `validateUrl` rejects the URL. -/
theorem c8_validate_url_rejects_witness :
    parseUrl "http://10.0.0.5/x" = some ⟨false, "10.0.0.5", "/x", none⟩ ∧
    isPrivateIP (toLowerStr "10.0.0.5") = true ∧
    validateUrl "http://10.0.0.5/x" xhsAllowed = false :=
  ⟨rfl, by decide,
   c8_validate_url_rejects.2.2.1 "http://10.0.0.5/x" xhsAllowed
     ⟨false, "10.0.0.5", "/x", none⟩ rfl (Or.inl (by decide))⟩

/-- C10 witness: an otherwise well-formed note link containing `<` is rejected
by the input gate. -/
theorem c10_parse_url_guard_witness :
    parseXHSUrl "https://www.xiaohongshu.com/explore/a<b" = none :=
  c10_parse_url_guard "https://www.xiaohongshu.com/explore/a<b"
    (Or.inr ⟨'<', by decide, by decide⟩)
/-- C6 witness: the amended delivery guarantees at a concrete run. -/
theorem c6_batch_resolver_amended_witness :
    (parseLinksWithLimit xhsAllowed (fun _ => true) [rawUrl1, rawUrl2]).2.Nodup ∧
    ∀ x ∈ (parseLinksWithLimit xhsAllowed (fun _ => true) [rawUrl1, rawUrl2]).2,
      x ∈ (parseLinksWithLimit xhsAllowed (fun _ => true) [rawUrl1, rawUrl2]).1 :=
  c6_batch_resolver_amended xhsAllowed (fun _ => true) [rawUrl1, rawUrl2]
